import Mathlib

/-!
# Verification of the linked-list file system `sistema_encadeado.py`

A shallow embedding of the linked-allocation file-system simulator:
a fixed "disk" of `NUM_BLOCKS = 32` blocks, each a 32-bit word packing a
16-bit data field (low half) and a 16-bit successor pointer (high half,
`NULL_PTR = 0xFFFF` meaning end of chain), a free list threaded through the
successor fields, and a directory mapping names to `(start, length)`.

Python integers are mathematical integers, so `pack_block`/`unpack_block`
are embedded over `Int` (note that in this Lean toolchain `/` and `%` on
`Int` are euclidean, which for the positive divisor `65536` coincides with
Python's floor-division `>> 16` and `% = & 0xFFFF` semantics on all
integers, negatives included).  The disk itself is an `array('I')` of
unsigned 32-bit words, so disk cells are `Nat`s; all values the program
stores are outputs of `pack_block` on non-negative arguments, hence fit.

Python raises `IndexError` on an out-of-range `disk[idx]`; the embedding
makes this explicit with the `PyResult.indexError` constructor.  The
chain-walking `while` loops are embedded with a fuel parameter large enough
(`WALK_FUEL = NULL_PTR + 3`) that exhaustion (`PyResult.fuelOut`) is
unreachable: every iteration either stops or adds a fresh index to the
`seen` set, and all indices except possibly the first are 16-bit values.

Error conditions that the Python code signals by printing a distinct
message and returning `False`/`None` are embedded as explicit result
values (`CreateResult`, `Option` results), mirroring the observable
behaviour (return value plus printed error kind) of each operation.
-/

/-! ## Constants (`NUM_BLOCKS`, `NULL_PTR`, `BLOCK_MASK_16`) -/

def NUM_BLOCKS : Nat := 32

def NULL_PTR : Nat := 0xFFFF

def BLOCK_MASK_16 : Nat := 0xFFFF

/-! ## Block codec (`pack_block`, `unpack_block`)

Python source:
```
def pack_block(data16, ptr16):
    return ((ptr16 & BLOCK_MASK_16) << 16) | (data16 & BLOCK_MASK_16)

def unpack_block(value):
    data16 = value & BLOCK_MASK_16
    ptr16 = (value >> 16) & BLOCK_MASK_16
    return data16, ptr16
```
`x & 0xFFFF = x mod 2^16` (with Python's `&` on negative numbers acting on
the two's-complement form, i.e. exactly the euclidean `%`), the two masked
fields are bit-disjoint so `|` is `+`, and `<< 16` / `>> 16` are
multiplication / floor division by `2^16`. -/

def pack_block (data16 ptr16 : Int) : Int :=
  (ptr16 % 65536) * 65536 + data16 % 65536

def unpack_block (value : Int) : Int × Int :=
  (value % 65536, value / 65536 % 65536)

/-- `pack_block` at the program's call sites: every argument the program
ever passes is a natural number (a character code, a block index, `0` or
`NULL_PTR`), and the result is stored into the unsigned `array('I')`. -/
def packNat (data16 ptr16 : Nat) : Nat :=
  (ptr16 % 65536) * 65536 + data16 % 65536

/-- `unpack_block` at the program's call sites: disk cells are unsigned
32-bit words. -/
def unpackNat (value : Nat) : Nat × Nat :=
  (value % 65536, value / 65536 % 65536)

/-- The `Nat` call-site specializations agree with the `Int` codec. -/
theorem packNat_eq_pack_block (d p : Nat) : (packNat d p : Int) = pack_block d p := by
  simp [packNat, pack_block]

/-! ## Program state

The module-level mutable state of `sistema_encadeado.py`:
```
disk = array(TYPECODE, [0] * NUM_BLOCKS)
directory: Dict[str, Tuple[int, int]] = {}
free_head: Optional[int] = None
free_size: int = 0
```
The directory (a Python `dict`, insertion ordered, unique keys) is embedded
as an association list; insertion of a fresh key appends, deletion removes
the (unique) matching key. -/

structure FS where
  disk : List Nat
  directory : List (String × Nat × Nat)
  free_head : Option Nat
  free_size : Nat
deriving DecidableEq, Repr

/-- The module-load state, before any operation runs. -/
def initialState : FS :=
  { disk := List.replicate NUM_BLOCKS 0
    directory := []
    free_head := none
    free_size := 0 }

/-- `name in directory` / `directory[name]`: first (unique) matching key. -/
def dirLookup : List (String × Nat × Nat) → String → Option (Nat × Nat)
  | [], _ => none
  | (n, v) :: rest, name => if n = name then some v else dirLookup rest name

/-- `del directory[name]`: drop the (unique) matching key. -/
def dirErase : List (String × Nat × Nat) → String → List (String × Nat × Nat)
  | [], _ => []
  | (n, v) :: rest, name => if n = name then rest else (n, v) :: dirErase rest name

/-- Reading the successor field of block `i` (`unpack_block(disk[i])[1]`). -/
def ptrOf (disk : List Nat) (i : Nat) : Nat :=
  (unpackNat (disk.getD i 0)).2

/-- Reading the data field of block `i` (`unpack_block(disk[i])[0]`). -/
def dataOf (disk : List Nat) (i : Nat) : Nat :=
  (unpackNat (disk.getD i 0)).1

/-- The value Python uses for the current free head at the sites that write
it into a pointer field (`free_head if free_head is not None else NULL_PTR`);
the allocation loop likewise treats `None` and `NULL_PTR` identically. -/
def headPtr (fh : Option Nat) : Nat := fh.getD NULL_PTR

/-- The index a (possibly empty) chain starts at: its first element, or
`NULL_PTR` for the empty chain.  This is exactly the successor value the
program computes as `lst[0] if lst else NULL_PTR`-style expressions
(`allocated_indices[i+1] if i+1 < len(allocated_indices) else NULL_PTR`). -/
def chainHead : List Nat → Nat
  | [] => NULL_PTR
  | a :: _ => a

/-! ## `init_disk`

```
def init_disk():
    global disk, free_head, free_size
    for i in range(NUM_BLOCKS):
        data = 0
        ptr = i + 1 if i + 1 < NUM_BLOCKS else NULL_PTR
        disk[i] = pack_block(data, ptr)
    free_head = 0
    free_size = NUM_BLOCKS
```
Note the `global` statement: `directory` is **not** among the variables
`init_disk` touches. -/

/-- The word written into block `i` by `init_disk`:
`pack_block(0, i + 1 if i + 1 < NUM_BLOCKS else NULL_PTR)`. -/
def initBlock (i : Nat) : Nat :=
  packNat 0 (if i + 1 < NUM_BLOCKS then i + 1 else NULL_PTR)

/-- The `for i in range(NUM_BLOCKS)` loop body of `init_disk`. -/
def initFold (L : List Nat) : List Nat :=
  (List.range NUM_BLOCKS).foldl (fun d i => d.set i (initBlock i)) L

def init_disk (s : FS) : FS :=
  { s with
    disk := initFold s.disk
    free_head := some 0
    free_size := NUM_BLOCKS }

/-- The pristine boot state: module load followed by the `init_disk()` call
that both the demo driver and the interactive menu perform first. -/
def boot : FS := init_disk initialState

/-! ## Result types

The Python operations communicate errors by printing a distinct message
and returning `False`/`None`; each distinct (message kind, return value)
outcome is one constructor here.  `PyResult.indexError` is an uncaught
`IndexError` from an out-of-range `disk[idx]` (possible only on corrupted
states); `PyResult.fuelOut` is exhaustion of the walk fuel, which the
theorems below show to be unreachable wherever a claim evaluates a walk. -/

inductive PyResult (α : Type) where
  | ok (val : α)
  | indexError
  | fuelOut
deriving DecidableEq, Repr

inductive CreateResult where
  | success
  | invalidName
  | duplicateName
  | emptyContent
  | insufficientSpace
  | allocationFailure
deriving DecidableEq, Repr

/-! ## `create_file` -/

/-- Outcome of the allocation loop inside `create_file`: either the list of
popped indices with the new free-list head and size, or (defensive branch,
free list unexpectedly empty) the rolled-back disk, head and size. -/
inductive AllocRes where
  | success (alloc : List Nat) (fh : Option Nat) (fs : Nat)
  | failure (disk : List Nat) (fh : Option Nat) (fs : Nat)
deriving DecidableEq, Repr

/-- Re-inserting one block at the head of the free list, as done by the
rollback branch of `create_file` and by `delete_file`:
`disk[idx] = pack_block(0, free_head if free_head is not None else NULL_PTR);
free_head = idx; free_size += 1`. -/
def pushFree (disk : List Nat) (fh : Option Nat) (fs : Nat) (idx : Nat) :
    List Nat × Option Nat × Nat :=
  (disk.set idx (packNat 0 (headPtr fh)), some idx, fs + 1)

/-- The rollback loop (`for idx in allocated_indices: ...`).  The source
also reads `disk[idx]` into unused variables before overwriting it; that
read is in bounds (each `idx` was just popped off the free list, hence was
successfully read there) and has no effect, so it is not modelled. -/
def rollbackAll (disk : List Nat) (fh : Option Nat) (fs : Nat) :
    List Nat → List Nat × Option Nat × Nat
  | [] => (disk, fh, fs)
  | idx :: rest =>
      let (d', fh', fs') := pushFree disk fh fs idx
      rollbackAll d' fh' fs' rest

/-- The allocation loop of `create_file` (`for _ in range(needed)`), popping
`n` blocks off the free list.  Popping only reads the disk; on the
defensive empty-free-list branch the already-popped indices are pushed
back.  An out-of-range `disk[free_head]` read raises `IndexError`. -/
def allocLoop (disk : List Nat) : Option Nat → Nat → List Nat → Nat → PyResult AllocRes
  | fh, fs, acc, 0 => .ok (.success acc fh fs)
  | fh, fs, acc, n + 1 =>
      if headPtr fh = NULL_PTR then
        let (d', fh', fs') := rollbackAll disk fh fs acc
        .ok (.failure d' fh' fs')
      else
        let idx := headPtr fh
        if idx < disk.length then
          let next_free := ptrOf disk idx
          let fh' := if next_free ≠ NULL_PTR then some next_free else none
          allocLoop disk fh' (fs - 1) (acc ++ [idx]) n
        else
          .indexError

/-- The write loop of `create_file`: store each character of the content in
its allocated block, threading the successor pointers
(`next_ptr = allocated_indices[i+1] if i+1 < len(allocated_indices) else NULL_PTR`).
The two lists have equal length whenever this is reached. -/
def writeChain (disk : List Nat) : List Char → List Nat → List Nat
  | [], _ => disk
  | _, [] => disk
  | ch :: cs, idx :: rest =>
      writeChain (disk.set idx (packNat ch.toNat (chainHead rest))) cs rest

/--
```
def create_file(name, content):
    if len(name) == 0 or len(name) > 4: ... return False        # InvalidName
    if name in directory: ... return False                      # DuplicateName
    needed = len(content)
    if needed == 0: ... return False                            # EmptyContent
    if free_size < needed: ... return False                     # InsufficientSpace
    <allocation loop, with defensive rollback>                  # AllocationFailure
    <write loop>
    directory[name] = (allocated_indices[0], needed)
    return True
```
(`allocated_indices` is non-empty on the success path since `needed ≥ 1`;
`headD 0` is that first element.) -/
def create_file (s : FS) (name content : String) : PyResult (CreateResult × FS) :=
  if name.length = 0 ∨ name.length > 4 then .ok (.invalidName, s)
  else if (dirLookup s.directory name).isSome then .ok (.duplicateName, s)
  else
    let needed := content.length
    if needed = 0 then .ok (.emptyContent, s)
    else if s.free_size < needed then .ok (.insufficientSpace, s)
    else
      match allocLoop s.disk s.free_head s.free_size [] needed with
      | .indexError => .indexError
      | .fuelOut => .fuelOut
      | .ok (.failure d' fh' fs') =>
          .ok (.allocationFailure, { s with disk := d', free_head := fh', free_size := fs' })
      | .ok (.success alloc fh' fs') =>
          .ok (.success,
            { disk := writeChain s.disk content.data alloc
              directory := s.directory ++ [(name, alloc.headD 0, needed)]
              free_head := fh'
              free_size := fs' })

/-! ## `read_file` -/

/-- One decoded character: `'?'` for `data16 == 0`, else `chr(data16)`.
For `data16 ≤ 65535` Python's `chr` never raises, so the
`except ValueError` branch of the source is dead code.  (For a surrogate
code point — storable only by corrupting the disk by hand, since no Lean
`Char` packs to one — `Char.ofNat` yields U+0000 where Python's `chr`
yields a lone surrogate; no theorem below evaluates a read on such data.) -/
def charOfData (data16 : Nat) : Char :=
  if data16 = 0 then '?' else Char.ofNat data16

/-- Fuel bound for the chain walks: each iteration either stops or adds a
fresh index to `seen`, and every index after the first is a 16-bit value,
so no walk can take more than `NULL_PTR + 2` steps. -/
def WALK_FUEL : Nat := NULL_PTR + 3

/-- The chain walk of `read_file`:
```
while idx != NULL_PTR:
    if idx in seen: <cycle message>; break
    seen.add(idx)
    data16, ptr16 = unpack_block(disk[idx])
    chars.append('?' if data16 == 0 else chr(data16))
    idx = ptr16
```
On the cycle break the accumulated characters are still returned. -/
def readLoop (disk : List Nat) : Nat → Nat → List Nat → List Char → PyResult (List Char)
  | 0, _, _, _ => .fuelOut
  | fuel + 1, idx, seen, acc =>
      if idx = NULL_PTR then .ok acc
      else if idx ∈ seen then .ok acc
      else if idx < disk.length then
        readLoop disk fuel (ptrOf disk idx) (idx :: seen) (acc ++ [charOfData (dataOf disk idx)])
      else .indexError

/--
```
def read_file(name):
    if name not in directory: ... return None                   # NotFound
    start_idx, _ = directory[name]
    <chain walk>
    return ''.join(chars)
```
-/
def read_file (s : FS) (name : String) : PyResult (Option String) :=
  match dirLookup s.directory name with
  | none => .ok none
  | some (start_idx, _) =>
      match readLoop s.disk WALK_FUEL start_idx [] [] with
      | .ok chars => .ok (some (String.mk chars))
      | .indexError => .indexError
      | .fuelOut => .fuelOut

/-! ## `delete_file` -/

/-- The chain walk of `delete_file`: free each visited block by pushing it
onto the head of the free list, following the successor value read
**before** the block is overwritten:
```
while idx != NULL_PTR:
    if idx in seen: <cycle message>; break
    seen.add(idx)
    data16, ptr16 = unpack_block(disk[idx])
    next_idx = ptr16
    disk[idx] = pack_block(0, free_head if free_head is not None else NULL_PTR)
    free_head = idx
    free_size += 1
    freed_count += 1
    idx = next_idx
```
Returns `(disk, free_head, free_size, freed_count)`. -/
def deleteLoop (fuel : Nat) (disk : List Nat) (fh : Option Nat) (fs : Nat)
    (idx : Nat) (seen : List Nat) (freed : Nat) :
    PyResult (List Nat × Option Nat × Nat × Nat) :=
  match fuel with
  | 0 => .fuelOut
  | fuel + 1 =>
      if idx = NULL_PTR then .ok (disk, fh, fs, freed)
      else if idx ∈ seen then .ok (disk, fh, fs, freed)
      else if idx < disk.length then
        let next_idx := ptrOf disk idx
        let (d', fh', fs') := pushFree disk fh fs idx
        deleteLoop fuel d' fh' fs' next_idx (idx :: seen) (freed + 1)
      else .indexError

/--
```
def delete_file(name):
    if name not in directory: ... return False                  # NotFound
    start_idx, _ = directory[name]
    <chain walk, freeing blocks>
    del directory[name]
    return True                # prints the freed_count
```
The freed count, printed on success, is the `some` payload. -/
def delete_file (s : FS) (name : String) : PyResult (Option Nat × FS) :=
  match dirLookup s.directory name with
  | none => .ok (none, s)
  | some (start_idx, _) =>
      match deleteLoop WALK_FUEL s.disk s.free_head s.free_size start_idx [] 0 with
      | .ok (d', fh', fs', freed) =>
          .ok (some freed,
            { disk := d'
              directory := dirErase s.directory name
              free_head := fh'
              free_size := fs' })
      | .indexError => .indexError
      | .fuelOut => .fuelOut

/-! ## Operation sequences -/

/-- One driver-level operation: the claims quantify over sequences of
`create_file` / `delete_file` calls. -/
inductive FsOp where
  | create (name content : String)
  | delete (name : String)
deriving DecidableEq, Repr

/-- Applying one operation: the state after the call (the state is
unchanged by the operation's early-error paths, which return it as is). -/
def applyOp (s : FS) : FsOp → FS
  | .create name content =>
      match create_file s name content with
      | .ok (_, s') => s'
      | _ => s
  | .delete name =>
      match delete_file s name with
      | .ok (_, s') => s'
      | _ => s

def applyOps (s : FS) (ops : List FsOp) : FS :=
  ops.foldl applyOp s

/-! ## Chains

`isChain disk idx L` says that walking successor pointers from `idx`
visits exactly the blocks listed in `L` (in order) and then stops at
`NULL_PTR`.  This is the abstract shape of both the free list and every
file's chain. -/

def isChain (disk : List Nat) : Nat → List Nat → Prop
  | idx, [] => idx = NULL_PTR
  | idx, a :: rest => idx = a ∧ a < disk.length ∧ isChain disk (ptrOf disk a) rest

theorem isChain_nil {disk : List Nat} {idx : Nat} : isChain disk idx [] ↔ idx = NULL_PTR :=
  Iff.rfl

theorem isChain_cons {disk : List Nat} {idx a : Nat} {rest : List Nat} :
    isChain disk idx (a :: rest) ↔
      idx = a ∧ a < disk.length ∧ isChain disk (ptrOf disk a) rest :=
  Iff.rfl

theorem isChain_head {disk : List Nat} {idx : Nat} {L : List Nat}
    (h : isChain disk idx L) : idx = chainHead L := by
  cases L with
  | nil => exact h
  | cons a rest => exact h.1

theorem isChain_mem_lt {disk : List Nat} {idx : Nat} {L : List Nat}
    (h : isChain disk idx L) : ∀ a ∈ L, a < disk.length := by
  induction L generalizing idx with
  | nil => intro a ha; cases ha
  | cons b rest ih =>
    intro a ha
    rcases List.mem_cons.mp ha with rfl | ha
    · exact h.2.1
    · exact ih h.2.2 a ha

/-! ### Disk updates and chains -/

theorem getD_set_eq {l : List Nat} {i : Nat} (h : i < l.length) (v : Nat) :
    (l.set i v).getD i 0 = v := by
  simp [List.getD_eq_getElem?_getD, List.getElem?_set_self h]

theorem getD_set_ne {l : List Nat} {i j : Nat} (h : i ≠ j) (v : Nat) :
    (l.set i v).getD j 0 = l.getD j 0 := by
  simp [List.getD_eq_getElem?_getD, List.getElem?_set_ne h]

theorem ptrOf_set_ne {d : List Nat} {i j : Nat} (h : i ≠ j) (v : Nat) :
    ptrOf (d.set i v) j = ptrOf d j := by
  unfold ptrOf
  rw [getD_set_ne h]

theorem dataOf_set_ne {d : List Nat} {i j : Nat} (h : i ≠ j) (v : Nat) :
    dataOf (d.set i v) j = dataOf d j := by
  unfold dataOf
  rw [getD_set_ne h]

theorem ptrOf_set_eq {d : List Nat} {i : Nat} (h : i < d.length) (v : Nat) :
    ptrOf (d.set i v) i = (unpackNat v).2 := by
  unfold ptrOf
  rw [getD_set_eq h]

theorem dataOf_set_eq {d : List Nat} {i : Nat} (h : i < d.length) (v : Nat) :
    dataOf (d.set i v) i = (unpackNat v).1 := by
  unfold dataOf
  rw [getD_set_eq h]

theorem unpackNat_packNat (d p : Nat) :
    unpackNat (packNat d p) = (d % 65536, p % 65536) := by
  simp only [unpackNat, packNat, Prod.mk.injEq]
  constructor <;> omega

/-- A chain is insensitive to changes of the disk outside its own blocks. -/
theorem isChain_of_eq_on {d d' : List Nat} {idx : Nat} {L : List Nat}
    (hlen : d'.length = d.length) (hptr : ∀ a ∈ L, ptrOf d' a = ptrOf d a)
    (h : isChain d idx L) : isChain d' idx L := by
  induction L generalizing idx with
  | nil => exact h
  | cons a rest ih =>
    refine ⟨h.1, hlen ▸ h.2.1, ?_⟩
    rw [hptr a (List.mem_cons_self a rest)]
    exact ih (fun b hb => hptr b (List.mem_cons_of_mem a hb)) h.2.2

theorem isChain_set_of_notMem {d : List Nat} {idx a : Nat} {L : List Nat} (v : Nat)
    (ha : a ∉ L) (h : isChain d idx L) : isChain (d.set a v) idx L :=
  isChain_of_eq_on (List.length_set d a v)
    (fun b hb => ptrOf_set_ne (fun hab => ha (by rw [hab]; exact hb)) v) h

/-- Chains are uniquely determined by their start (on a disk short enough
that no legal index collides with `NULL_PTR`). -/
theorem isChain_unique {d : List Nat} (hd : d.length ≤ NULL_PTR) {idx : Nat}
    {L₁ L₂ : List Nat} (h₁ : isChain d idx L₁) (h₂ : isChain d idx L₂) : L₁ = L₂ := by
  induction L₁ generalizing idx L₂ with
  | nil =>
    cases L₂ with
    | nil => rfl
    | cons b rest =>
      rw [isChain_nil] at h₁
      obtain ⟨rfl, hb, _⟩ := h₂
      omega
  | cons a rest ih =>
    cases L₂ with
    | nil =>
      rw [isChain_nil] at h₂
      obtain ⟨rfl, ha, _⟩ := h₁
      omega
    | cons b rest' =>
      obtain ⟨rfl, ha, h₁'⟩ := h₁
      obtain ⟨rfl, hb, h₂'⟩ := h₂
      rw [ih h₁' h₂']

/-- Dropping the first `n` blocks of a chain leaves a chain. -/
theorem isChain_drop {d : List Nat} {idx : Nat} {L : List Nat}
    (h : isChain d idx L) (n : Nat) :
    isChain d (chainHead (L.drop n)) (L.drop n) := by
  induction n generalizing idx L with
  | zero =>
    rw [List.drop_zero]
    exact (isChain_head h) ▸ h
  | succ n ih =>
    cases L with
    | nil => exact rfl
    | cons a rest => exact ih h.2.2

/-! ## The ownership invariant

`FS.WF` is the global ownership invariant of the spec: the free list is a
genuine chain whose length is `free_size`, every directory entry owns a
genuine chain of exactly its recorded length, all these chains are
pairwise disjoint (and each is duplicate-free), and together they cover
the whole index range `0..NUM_BLOCKS-1`.  Directory keys are unique. -/

def entryMatch (disk : List Nat) (e : String × Nat × Nat) (L : List Nat) : Prop :=
  isChain disk e.2.1 L ∧ L.length = e.2.2

def FS.WF (s : FS) : Prop :=
  ∃ F files,
    s.disk.length = NUM_BLOCKS ∧
    isChain s.disk (headPtr s.free_head) F ∧
    s.free_size = F.length ∧
    List.Forall₂ (entryMatch s.disk) s.directory files ∧
    (F ++ files.flatten).Nodup ∧
    (∀ i < NUM_BLOCKS, i ∈ F ++ files.flatten) ∧
    (s.directory.map Prod.fst).Nodup


/-! ### What `init_disk` produces -/

theorem NUM_BLOCKS_eq : NUM_BLOCKS = 32 := rfl

theorem NULL_PTR_eq : NULL_PTR = 65535 := rfl

theorem initFoldAux_length (L : List Nat) (m : Nat) :
    ((List.range m).foldl (fun d i => d.set i (initBlock i)) L).length = L.length := by
  induction m with
  | zero => rfl
  | succ m ih =>
    rw [List.range_succ, List.foldl_append]
    simp [ih]

theorem initFoldAux_getD (L : List Nat) (m : Nat) (hm : m ≤ L.length) (j : Nat) :
    ((List.range m).foldl (fun d i => d.set i (initBlock i)) L).getD j 0 =
      if j < m then initBlock j else L.getD j 0 := by
  induction m with
  | zero => simp
  | succ m ih =>
    rw [List.range_succ, List.foldl_append]
    simp only [List.foldl_cons, List.foldl_nil]
    rcases eq_or_ne j m with rfl | hne
    · rw [getD_set_eq (by rw [initFoldAux_length]; omega)]
      simp
    · rw [getD_set_ne (Ne.symm hne), ih (by omega)]
      rcases Nat.lt_or_ge j m with hlt | hge
      · rw [if_pos hlt, if_pos (by omega)]
      · rw [if_neg (by omega), if_neg (by omega)]

theorem init_disk_disk (s : FS) : (init_disk s).disk = initFold s.disk := by
  simp only [init_disk]

theorem initFold_length (L : List Nat) : (initFold L).length = L.length := by
  unfold initFold
  exact initFoldAux_length L NUM_BLOCKS

theorem init_disk_length (s : FS) : (init_disk s).disk.length = s.disk.length := by
  rw [init_disk_disk]
  exact initFold_length s.disk

theorem init_disk_getD (s : FS) (h32 : s.disk.length = NUM_BLOCKS) {j : Nat}
    (hj : j < NUM_BLOCKS) : (init_disk s).disk.getD j 0 = initBlock j := by
  rw [init_disk_disk]
  unfold initFold
  rw [initFoldAux_getD s.disk NUM_BLOCKS (Nat.le_of_eq h32.symm) j, if_pos hj]

theorem init_disk_directory (s : FS) : (init_disk s).directory = s.directory := by
  simp only [init_disk]

theorem init_disk_free_head (s : FS) : (init_disk s).free_head = some 0 := by
  simp only [init_disk]

theorem init_disk_free_size (s : FS) : (init_disk s).free_size = NUM_BLOCKS := by
  simp only [init_disk]

theorem ptrOf_init (s : FS) (h32 : s.disk.length = NUM_BLOCKS) {j : Nat}
    (hj : j < NUM_BLOCKS) :
    ptrOf (init_disk s).disk j = if j + 1 < NUM_BLOCKS then j + 1 else NULL_PTR := by
  unfold ptrOf
  rw [init_disk_getD s h32 hj, initBlock, unpackNat_packNat]
  show (if j + 1 < NUM_BLOCKS then j + 1 else NULL_PTR) % 65536 =
    if j + 1 < NUM_BLOCKS then j + 1 else NULL_PTR
  have hN := NUM_BLOCKS_eq
  have hP := NULL_PTR_eq
  rcases Nat.lt_or_ge (j + 1) NUM_BLOCKS with h | h
  · rw [if_pos h]
    omega
  · rw [if_neg (by omega)]
    omega

theorem dataOf_init (s : FS) (h32 : s.disk.length = NUM_BLOCKS) {j : Nat}
    (hj : j < NUM_BLOCKS) : dataOf (init_disk s).disk j = 0 := by
  unfold dataOf
  rw [init_disk_getD s h32 hj, initBlock, unpackNat_packNat]

/-- The fresh free chain: from block `k` (with `k + n = NUM_BLOCKS`) the
successor pointers of the initialized disk walk `k, k+1, ..., NUM_BLOCKS-1`. -/
theorem isChain_init (s : FS) (h32 : s.disk.length = NUM_BLOCKS) :
    ∀ n k, k + n = NUM_BLOCKS →
      isChain (init_disk s).disk (if n = 0 then NULL_PTR else k) (List.range' k n) := by
  intro n
  induction n with
  | zero => intro k _; exact rfl
  | succ n ih =>
    intro k hk
    rw [List.range'_succ, if_neg (Nat.succ_ne_zero n)]
    refine ⟨rfl, ?_, ?_⟩
    · rw [init_disk_length, h32]; omega
    · rw [ptrOf_init s h32 (by omega)]
      have hnext := ih (k + 1) (by omega)
      rcases Nat.eq_zero_or_pos n with rfl | hn
      · rw [if_neg (by omega)]
        simpa using hnext
      · rw [if_pos (by omega)]
        rw [if_neg (by omega)] at hnext
        exact hnext

/-- `init_disk` on a state with an empty directory establishes the global
ownership invariant, with the whole index range on the free list. -/
theorem WF_init (s : FS) (hdir : s.directory = []) (h32 : s.disk.length = NUM_BLOCKS) :
    (init_disk s).WF := by
  refine ⟨List.range' 0 NUM_BLOCKS, [], ?_, ?_, ?_, ?_, ?_, ?_, ?_⟩
  · rw [init_disk_length, h32]
  · have h := isChain_init s h32 NUM_BLOCKS 0 (by omega)
    rw [if_neg (by decide)] at h
    exact h
  · simp [init_disk_free_size]
  · rw [init_disk_directory, hdir]
    exact List.Forall₂.nil
  · simp [List.nodup_range']
  · intro i hi
    simp only [List.flatten_nil, List.append_nil, List.mem_range'_1]
    omega
  · rw [init_disk_directory, hdir]
    simp

/-! ## Directory lemmas -/

theorem dirLookup_eq_none_iff (d : List (String × Nat × Nat)) (name : String) :
    dirLookup d name = none ↔ name ∉ d.map Prod.fst := by
  induction d with
  | nil => simp [dirLookup]
  | cons e rest ih =>
    obtain ⟨n, v⟩ := e
    by_cases h : n = name
    · subst h
      simp [dirLookup]
    · simp [dirLookup, h, ih, Ne.symm h]

theorem dirLookup_append_self {d : List (String × Nat × Nat)} {name : String}
    (h : dirLookup d name = none) (v : Nat × Nat) :
    dirLookup (d ++ [(name, v)]) name = some v := by
  induction d with
  | nil => simp [dirLookup]
  | cons e rest ih =>
    obtain ⟨n, w⟩ := e
    by_cases hn : n = name
    · subst hn; simp [dirLookup] at h
    · simp only [dirLookup, List.cons_append, if_neg hn] at h ⊢
      exact ih h

/-- Finding a key splits the directory; erasing removes exactly that entry. -/
theorem dirLookup_some_split {d : List (String × Nat × Nat)} {name : String} {st len : Nat}
    (h : dirLookup d name = some (st, len)) :
    ∃ pre post, d = pre ++ (name, st, len) :: post ∧ name ∉ pre.map Prod.fst ∧
      dirErase d name = pre ++ post := by
  induction d with
  | nil => simp [dirLookup] at h
  | cons e rest ih =>
    obtain ⟨n, v⟩ := e
    by_cases hn : n = name
    · subst hn
      rw [dirLookup, if_pos rfl] at h
      obtain rfl : v = (st, len) := by injection h
      refine ⟨[], rest, (List.nil_append _).symm, by simp, ?_⟩
      rw [dirErase, if_pos rfl]
      exact (List.nil_append rest).symm
    · rw [dirLookup, if_neg hn] at h
      obtain ⟨pre, post, hd, hpre, herase⟩ := ih h
      refine ⟨(n, v) :: pre, post, by rw [hd]; rfl, ?_, ?_⟩
      · simp only [List.map_cons, List.mem_cons]
        push_neg
        exact ⟨Ne.symm hn, hpre⟩
      · rw [dirErase, if_neg hn, herase]
        simp

/-! ## Forall₂ splitting and joining -/

theorem forall₂_append_split {α β : Type} {R : α → β → Prop} {l₁ l₂ : List α} {l : List β}
    (h : List.Forall₂ R (l₁ ++ l₂) l) :
    ∃ m₁ m₂, l = m₁ ++ m₂ ∧ List.Forall₂ R l₁ m₁ ∧ List.Forall₂ R l₂ m₂ := by
  induction l₁ generalizing l with
  | nil => exact ⟨[], l, rfl, List.Forall₂.nil, h⟩
  | cons a rest ih =>
    cases h with
    | cons hab h' =>
      obtain ⟨m₁, m₂, rfl, h₁, h₂⟩ := ih h'
      exact ⟨_ :: m₁, m₂, rfl, List.Forall₂.cons hab h₁, h₂⟩

theorem forall₂_append_join {α β : Type} {R : α → β → Prop} {l₁ l₂ : List α} {m₁ m₂ : List β}
    (h₁ : List.Forall₂ R l₁ m₁) (h₂ : List.Forall₂ R l₂ m₂) :
    List.Forall₂ R (l₁ ++ l₂) (m₁ ++ m₂) := by
  induction h₁ with
  | nil => exact h₂
  | cons hab _ ih => exact List.Forall₂.cons hab ih

/-- Entries keep matching when the disk changes outside their chains. -/
theorem forall₂_entryMatch_of_eq_on {d d' : List Nat}
    {dir : List (String × Nat × Nat)} {files : List (List Nat)}
    (hlen : d'.length = d.length)
    (h : List.Forall₂ (entryMatch d) dir files)
    (hout : ∀ L ∈ files, ∀ a ∈ L, ptrOf d' a = ptrOf d a) :
    List.Forall₂ (entryMatch d') dir files := by
  induction h with
  | nil => exact List.Forall₂.nil
  | cons hab hrest ih =>
    refine List.Forall₂.cons ⟨?_, hab.2⟩ (ih (fun L hL => hout L (List.mem_cons_of_mem _ hL)))
    exact isChain_of_eq_on hlen (hout _ (List.mem_cons_self _ _)) hab.1

/-! ## A pigeonhole bound for walks -/

theorem nodup_bounded_length {L : List Nat} {n : Nat} (hnd : L.Nodup)
    (hbd : ∀ a ∈ L, a < n) : L.length ≤ n := by
  have hsub : L.toFinset ⊆ Finset.range n := by
    intro a ha
    rw [List.mem_toFinset] at ha
    exact Finset.mem_range.mpr (hbd a ha)
  have := Finset.card_le_card hsub
  rwa [List.toFinset_card_of_nodup hnd, Finset.card_range] at this

/-! ## The allocation loop on a well-formed free list -/

theorem headPtr_some (x : Nat) : headPtr (some x) = x := rfl

theorem headPtr_of_lt {x : Nat} (h : x ≠ NULL_PTR) :
    headPtr (if x ≠ NULL_PTR then some x else none) = x := by
  rw [if_pos h, headPtr_some]

/-- On a genuine free chain with at least `n ≥ 1` blocks, the allocation
loop pops exactly the first `n` chain blocks, in order, reading but never
writing the disk. -/
theorem allocLoop_success {disk : List Nat} (hlen : disk.length ≤ NULL_PTR) :
    ∀ (n : Nat) (F : List Nat) (fh : Option Nat) (fs : Nat) (acc : List Nat),
      isChain disk (headPtr fh) F → 1 ≤ n → n ≤ F.length →
      allocLoop disk fh fs acc n =
        .ok (.success (acc ++ F.take n)
          (match F.drop n with | [] => none | j :: _ => some j)
          (fs - n)) := by
  intro n
  induction n with
  | zero => intro F fh fs acc _ h1 _; exact absurd h1 (by omega)
  | succ n ih =>
    intro F fh fs acc hchain _ hle
    cases F with
    | nil => simp at hle
    | cons a rest =>
      obtain ⟨ha, halt, hrest⟩ := hchain
      have hne : ¬(headPtr fh = NULL_PTR) := by omega
      rw [allocLoop, if_neg hne]
      simp only [ha, if_pos halt]
      have hstep : isChain disk (headPtr (if ptrOf disk a ≠ NULL_PTR then some (ptrOf disk a) else none)) rest := by
        rcases rest with _ | ⟨b, rest'⟩
        · rw [isChain_nil] at hrest ⊢
          rw [hrest, if_neg (by omega)]
          rfl
        · have hb : ptrOf disk a = b := hrest.1
          have hblt : b < disk.length := hrest.2.1
          rw [headPtr_of_lt (by omega)]
          exact hrest
      rcases Nat.eq_zero_or_pos n with rfl | hn
      · rw [allocLoop]
        cases rest with
        | nil =>
          rw [isChain_nil] at hrest
          simp [hrest, headPtr]
        | cons b rest' =>
          have hb : ptrOf disk a = b := hrest.1
          have hblt : b < disk.length := hrest.2.1
          rw [if_pos (by omega : ptrOf disk a ≠ NULL_PTR)]
          simp [hb]
      · rw [ih rest _ (fs - 1) (acc ++ [a]) hstep hn (by simpa using hle)]
        simp only [List.take_succ_cons, List.drop_succ_cons, List.append_assoc,
          List.singleton_append]
        have hfs : fs - 1 - n = fs - (n + 1) := by omega
        rw [hfs]

/-! ## The write loop of `create_file` -/

theorem writeChain_length : ∀ (cs : List Char) (A : List Nat) (d : List Nat),
    (writeChain d cs A).length = d.length := by
  intro cs
  induction cs with
  | nil => intro A d; cases A <;> rfl
  | cons c cs ih =>
    intro A d
    cases A with
    | nil => rfl
    | cons a rest =>
      rw [writeChain, ih, List.length_set]

theorem writeChain_getD_notMem : ∀ (cs : List Char) (A : List Nat) (d : List Nat) {j : Nat},
    j ∉ A → (writeChain d cs A).getD j 0 = d.getD j 0 := by
  intro cs
  induction cs with
  | nil => intro A d j _; cases A <;> rfl
  | cons c cs ih =>
    intro A d j hj
    cases A with
    | nil => rfl
    | cons a rest =>
      rw [writeChain, ih _ _ (fun h => hj (List.mem_cons_of_mem a h)),
        getD_set_ne (fun h => hj (by rw [← h]; exact List.mem_cons_self a rest))]

theorem ptrOf_writeChain_notMem {cs : List Char} {A : List Nat} {d : List Nat} {j : Nat}
    (hj : j ∉ A) : ptrOf (writeChain d cs A) j = ptrOf d j := by
  unfold ptrOf
  rw [writeChain_getD_notMem cs A d hj]

theorem dataOf_writeChain_notMem {cs : List Char} {A : List Nat} {d : List Nat} {j : Nat}
    (hj : j ∉ A) : dataOf (writeChain d cs A) j = dataOf d j := by
  unfold dataOf
  rw [writeChain_getD_notMem cs A d hj]

/-- After the write loop, the allocated blocks are threaded into a chain
from the first allocated index. -/
theorem writeChain_chain : ∀ (cs : List Char) (A : List Nat) (d : List Nat),
    d.length ≤ NULL_PTR → A.Nodup → (∀ a ∈ A, a < d.length) → cs.length = A.length →
    isChain (writeChain d cs A) (chainHead A) A := by
  intro cs
  induction cs with
  | nil =>
    intro A d _ _ _ hlen
    obtain rfl : A = [] := by
      cases A
      · rfl
      · simp at hlen
    exact rfl
  | cons c cs ih =>
    intro A d hd hnd hbd hlen
    cases A with
    | nil => simp at hlen
    | cons a rest =>
      have ha : a < d.length := hbd a (List.mem_cons_self a rest)
      have hanr : a ∉ rest := (List.nodup_cons.mp hnd).1
      rw [writeChain]
      refine ⟨rfl, ?_, ?_⟩
      · rw [writeChain_length, List.length_set]
        exact ha
      · have hptr : ptrOf (writeChain (d.set a (packNat c.toNat (chainHead rest))) cs rest) a
            = chainHead rest := by
          rw [ptrOf_writeChain_notMem hanr, ptrOf_set_eq ha, unpackNat_packNat]
          show chainHead rest % 65536 = chainHead rest
          cases rest with
          | nil =>
            show NULL_PTR % 65536 = NULL_PTR
            rfl
          | cons b rest' =>
            show b % 65536 = b
            have := hbd b (by simp)
            have := NULL_PTR_eq
            omega
        rw [hptr]
        refine ih rest (d.set a (packNat c.toNat (chainHead rest))) ?_ (List.nodup_cons.mp hnd).2 ?_ (by simpa using hlen)
        · rw [List.length_set]; exact hd
        · intro b hb
          rw [List.length_set]
          exact hbd b (List.mem_cons_of_mem a hb)

/-- After the write loop, each allocated block stores its character's code
point masked to 16 bits. -/
theorem writeChain_data : ∀ (cs : List Char) (A : List Nat) (d : List Nat),
    A.Nodup → (∀ a ∈ A, a < d.length) → cs.length = A.length →
    List.Forall₂ (fun c a => dataOf (writeChain d cs A) a = c.toNat % 65536) cs A := by
  intro cs
  induction cs with
  | nil =>
    intro A d _ _ hlen
    obtain rfl : A = [] := by
      cases A
      · rfl
      · simp at hlen
    exact List.Forall₂.nil
  | cons c cs ih =>
    intro A d hnd hbd hlen
    cases A with
    | nil => simp at hlen
    | cons a rest =>
      have ha : a < d.length := hbd a (List.mem_cons_self a rest)
      have hanr : a ∉ rest := (List.nodup_cons.mp hnd).1
      rw [writeChain]
      refine List.Forall₂.cons ?_ ?_
      · rw [dataOf_writeChain_notMem hanr, dataOf_set_eq ha, unpackNat_packNat]
      · exact ih rest _ (List.nodup_cons.mp hnd).2
          (fun b hb => by rw [List.length_set]; exact hbd b (List.mem_cons_of_mem a hb))
          (by simpa using hlen)

/-! ## Pushing blocks back onto the free list -/

theorem rollbackAll_cons (d : List Nat) (fh : Option Nat) (fs idx : Nat) (rest : List Nat) :
    rollbackAll d fh fs (idx :: rest) =
      rollbackAll (d.set idx (packNat 0 (headPtr fh))) (some idx) (fs + 1) rest := by
  rfl

theorem rollbackAll_free_size : ∀ (L : List Nat) (d : List Nat) (fh : Option Nat) (fs : Nat),
    (rollbackAll d fh fs L).2.2 = fs + L.length := by
  intro L
  induction L with
  | nil => intro d fh fs; rfl
  | cons a rest ih =>
    intro d fh fs
    rw [rollbackAll_cons, ih]
    simp
    omega

theorem rollbackAll_disk_length : ∀ (L : List Nat) (d : List Nat) (fh : Option Nat) (fs : Nat),
    (rollbackAll d fh fs L).1.length = d.length := by
  intro L
  induction L with
  | nil => intro d fh fs; rfl
  | cons a rest ih =>
    intro d fh fs
    rw [rollbackAll_cons, ih, List.length_set]

theorem rollbackAll_getD_notMem : ∀ (L : List Nat) (d : List Nat) (fh : Option Nat) (fs : Nat)
    {j : Nat}, j ∉ L → (rollbackAll d fh fs L).1.getD j 0 = d.getD j 0 := by
  intro L
  induction L with
  | nil => intro d fh fs j _; rfl
  | cons a rest ih =>
    intro d fh fs j hj
    rw [rollbackAll_cons, ih _ _ _ (fun h => hj (List.mem_cons_of_mem a h)),
      getD_set_ne (fun h => hj (by rw [← h]; exact List.mem_cons_self a rest))]

theorem ptrOf_rollbackAll_notMem {L : List Nat} {d : List Nat} {fh : Option Nat} {fs : Nat}
    {j : Nat} (hj : j ∉ L) : ptrOf (rollbackAll d fh fs L).1 j = ptrOf d j := by
  unfold ptrOf
  rw [rollbackAll_getD_notMem L d fh fs hj]

/-- Pushing the (duplicate-free, in-bounds) blocks `L` one by one onto the
head of a genuine free chain `F` disjoint from `L` yields the free chain
`L.reverse ++ F`. -/
theorem rollbackAll_chain : ∀ (L F : List Nat) (d : List Nat) (fh : Option Nat) (fs : Nat),
    d.length ≤ NULL_PTR → L.Nodup → (∀ a ∈ L, a < d.length) → (∀ a ∈ L, a ∉ F) →
    isChain d (headPtr fh) F →
    isChain (rollbackAll d fh fs L).1 (headPtr (rollbackAll d fh fs L).2.1)
      (L.reverse ++ F) := by
  intro L
  induction L with
  | nil =>
    intro F d fh fs _ _ _ _ hF
    simpa using hF
  | cons a rest ih =>
    intro F d fh fs hd hnd hbd hdisj hF
    have ha : a < d.length := hbd a (List.mem_cons_self a rest)
    have haF : a ∉ F := hdisj a (List.mem_cons_self a rest)
    rw [rollbackAll_cons]
    have hchain1 : isChain (d.set a (packNat 0 (headPtr fh))) (headPtr (some a)) (a :: F) := by
      refine ⟨rfl, by rw [List.length_set]; exact ha, ?_⟩
      have hptr : ptrOf (d.set a (packNat 0 (headPtr fh))) a = headPtr fh := by
        rw [ptrOf_set_eq ha, unpackNat_packNat]
        show headPtr fh % 65536 = headPtr fh
        cases F with
        | nil =>
          rw [isChain_nil] at hF
          rw [hF]
          rfl
        | cons b rest' =>
          have hb : headPtr fh = b := hF.1
          have hblt : b < d.length := hF.2.1
          have := NULL_PTR_eq
          omega
      rw [hptr]
      exact isChain_set_of_notMem _ haF hF
    have := ih (a :: F) (d.set a (packNat 0 (headPtr fh))) (some a) (fs + 1)
      (by rw [List.length_set]; exact hd)
      (List.nodup_cons.mp hnd).2
      (fun b hb => by rw [List.length_set]; exact hbd b (List.mem_cons_of_mem a hb))
      (fun b hb => by
        simp only [List.mem_cons]
        push_neg
        exact ⟨fun h => (List.nodup_cons.mp hnd).1 (h ▸ hb),
          hdisj b (List.mem_cons_of_mem a hb)⟩)
      hchain1
    simpa [List.append_assoc] using this

/-! ## The chain walks on genuine chains -/

/-- On a genuine, duplicate-free chain the delete walk performs exactly the
push sequence of `rollbackAll` over the chain's blocks and counts them. -/
theorem deleteLoop_chain : ∀ (L : List Nat) (d : List Nat) (fuel : Nat) (fh : Option Nat)
    (fs idx : Nat) (seen : List Nat) (freed : Nat),
    d.length ≤ NULL_PTR → isChain d idx L → L.Nodup → (∀ a ∈ L, a ∉ seen) →
    L.length < fuel →
    deleteLoop fuel d fh fs idx seen freed =
      .ok ((rollbackAll d fh fs L).1, (rollbackAll d fh fs L).2.1,
        (rollbackAll d fh fs L).2.2, freed + L.length) := by
  intro L
  induction L with
  | nil =>
    intro d fuel fh fs idx seen freed _ hchain _ _ hfuel
    rw [isChain_nil] at hchain
    cases fuel with
    | zero => omega
    | succ fuel =>
      rw [deleteLoop, if_pos hchain]
      rfl
  | cons a rest ih =>
    intro d fuel fh fs idx seen freed hd hchain hnd hseen hfuel
    obtain ⟨rfl, halt, hrest⟩ := hchain
    cases fuel with
    | zero => omega
    | succ fuel =>
      have hne : ¬(idx = NULL_PTR) := by
        have := NULL_PTR_eq
        omega
      rw [deleteLoop, if_neg hne, if_neg (by simp [hseen idx (List.mem_cons_self idx rest)]),
        if_pos halt]
      simp only [pushFree]
      have hrec := ih (d.set idx (packNat 0 (headPtr fh))) fuel (some idx) (fs + 1)
        (ptrOf d idx) (idx :: seen) (freed + 1)
        (by rw [List.length_set]; exact hd)
        (isChain_set_of_notMem _ (List.nodup_cons.mp hnd).1 hrest)
        (List.nodup_cons.mp hnd).2
        (fun b hb => by
          simp only [List.mem_cons]
          push_neg
          exact ⟨fun h => (List.nodup_cons.mp hnd).1 (h ▸ hb),
            hseen b (List.mem_cons_of_mem idx hb)⟩)
        (by simpa using Nat.lt_of_succ_lt_succ hfuel)
      rw [hrec, rollbackAll_cons]
      simp only [List.length_cons]
      have : freed + 1 + rest.length = freed + (rest.length + 1) := by omega
      rw [this]

/-- On a genuine, duplicate-free chain the read walk returns exactly the
chain's decoded characters, in order. -/
theorem readLoop_chain : ∀ (L : List Nat) (d : List Nat) (fuel idx : Nat)
    (seen : List Nat) (acc : List Char),
    d.length ≤ NULL_PTR → isChain d idx L → L.Nodup → (∀ a ∈ L, a ∉ seen) →
    L.length < fuel →
    readLoop d fuel idx seen acc =
      .ok (acc ++ L.map (fun i => charOfData (dataOf d i))) := by
  intro L
  induction L with
  | nil =>
    intro d fuel idx seen acc _ hchain _ _ hfuel
    rw [isChain_nil] at hchain
    cases fuel with
    | zero => omega
    | succ fuel =>
      rw [readLoop, if_pos hchain]
      simp
  | cons a rest ih =>
    intro d fuel idx seen acc hd hchain hnd hseen hfuel
    obtain ⟨rfl, halt, hrest⟩ := hchain
    cases fuel with
    | zero => omega
    | succ fuel =>
      have hne : ¬(idx = NULL_PTR) := by
        have := NULL_PTR_eq
        omega
      rw [readLoop, if_neg hne, if_neg (by simp [hseen idx (List.mem_cons_self idx rest)]),
        if_pos halt]
      rw [ih d fuel (ptrOf d idx) (idx :: seen) (acc ++ [charOfData (dataOf d idx)]) hd hrest
        (List.nodup_cons.mp hnd).2
        (fun b hb => by
          simp only [List.mem_cons]
          push_neg
          exact ⟨fun h => (List.nodup_cons.mp hnd).1 (h ▸ hb),
            hseen b (List.mem_cons_of_mem idx hb)⟩)
        (by simpa using Nat.lt_of_succ_lt_succ hfuel)]
      simp

/-! ## `create_file`: branch characterizations -/

theorem create_file_invalidName {s : FS} {name content : String}
    (h : name.length = 0 ∨ name.length > 4) :
    create_file s name content = .ok (.invalidName, s) := by
  unfold create_file
  rw [if_pos h]

theorem create_file_duplicate {s : FS} {name content : String}
    (h1 : ¬(name.length = 0 ∨ name.length > 4))
    (h2 : (dirLookup s.directory name).isSome = true) :
    create_file s name content = .ok (.duplicateName, s) := by
  unfold create_file
  rw [if_neg h1, if_pos h2]

theorem create_file_empty {s : FS} {name content : String}
    (h1 : ¬(name.length = 0 ∨ name.length > 4))
    (h2 : dirLookup s.directory name = none)
    (h3 : content.length = 0) :
    create_file s name content = .ok (.emptyContent, s) := by
  unfold create_file
  rw [if_neg h1, if_neg (by simp [h2])]
  simp [h3]

theorem create_file_insufficient {s : FS} {name content : String}
    (h1 : ¬(name.length = 0 ∨ name.length > 4))
    (h2 : dirLookup s.directory name = none)
    (h3 : content.length ≠ 0)
    (h4 : s.free_size < content.length) :
    create_file s name content = .ok (.insufficientSpace, s) := by
  unfold create_file
  rw [if_neg h1, if_neg (by simp [h2])]
  simp only [if_neg h3, if_pos h4]

/-- The first allocated block is the head of the free chain. -/
theorem take_headD {F : List Nat} {n : Nat} (h1 : 1 ≤ n) (h2 : n ≤ F.length) :
    (F.take n).headD 0 = chainHead F := by
  cases F with
  | nil => simp at h2; omega
  | cons a rest =>
    cases n with
    | zero => omega
    | succ n => rfl

/-- `create_file` on a state whose free list is the genuine chain `F` of
length `free_size`, with a valid fresh name, non-empty content, and enough
space: it succeeds, writes the first `length(content)` free blocks, appends
the directory entry, and advances the free head past the allocated prefix. -/
theorem create_file_success {s : FS} {name content : String} {F : List Nat}
    (hlen : s.disk.length ≤ NULL_PTR)
    (hchain : isChain s.disk (headPtr s.free_head) F)
    (hfs : s.free_size = F.length)
    (hname : ¬(name.length = 0 ∨ name.length > 4))
    (hfresh : dirLookup s.directory name = none)
    (hne : content.length ≠ 0)
    (hspace : content.length ≤ s.free_size) :
    create_file s name content =
      .ok (.success,
        { disk := writeChain s.disk content.data (F.take content.length)
          directory := s.directory ++ [(name, chainHead F, content.length)]
          free_head := match F.drop content.length with | [] => none | j :: _ => some j
          free_size := s.free_size - content.length }) := by
  unfold create_file
  rw [if_neg hname, if_neg (by simp [hfresh])]
  simp only [if_neg hne, if_neg (Nat.not_lt.mpr hspace)]
  rw [allocLoop_success hlen content.length F s.free_head s.free_size [] hchain
    (by omega) (by omega)]
  simp only [List.nil_append]
  rw [take_headD (by omega) (by omega)]

/-! ## Permutation shuffles for the ownership partition -/

theorem perm_append_left_comm (a b c : List Nat) : (a ++ (b ++ c)).Perm (b ++ (a ++ c)) := by
  rw [← List.append_assoc, ← List.append_assoc]
  exact List.Perm.append_right c List.perm_append_comm

theorem perm_create_shuffle (A R fl : List Nat) :
    (R ++ (fl ++ A)).Perm ((A ++ R) ++ fl) :=
  (perm_append_left_comm R fl A).trans
    (List.perm_append_comm.trans (List.Perm.append_right fl List.perm_append_comm))

theorem perm_delete_shuffle (L F p q : List Nat) :
    ((L.reverse ++ F) ++ (p ++ q)).Perm (F ++ (p ++ (L ++ q))) := by
  have h1 : ((L.reverse ++ F) ++ (p ++ q)).Perm ((L ++ F) ++ (p ++ q)) :=
    List.Perm.append_right _ (List.Perm.append_right F (List.reverse_perm L))
  have h2 : ((L ++ F) ++ (p ++ q)).Perm (F ++ (L ++ (p ++ q))) := by
    rw [List.append_assoc]
    exact perm_append_left_comm L F (p ++ q)
  have h3 : (F ++ (L ++ (p ++ q))).Perm (F ++ (p ++ (L ++ q))) :=
    List.Perm.append_left F (perm_append_left_comm L p q)
  exact (h1.trans h2).trans h3

theorem chainHead_take {F : List Nat} {n : Nat} (h1 : 1 ≤ n) :
    chainHead (F.take n) = chainHead F := by
  cases F with
  | nil => simp
  | cons a rest =>
    cases n with
    | zero => omega
    | succ n => rfl

/-! ## `create_file` preserves the ownership invariant -/

theorem WF_create {s : FS} {name content : String} {r : CreateResult} {s' : FS}
    (hWF : s.WF) (h : create_file s name content = .ok (r, s')) : s'.WF := by
  obtain ⟨F, files, hlen, hchain, hfs, hfa, hnd, hcover, hkeys⟩ := hWF
  have hWFs : s.WF := ⟨F, files, hlen, hchain, hfs, hfa, hnd, hcover, hkeys⟩
  have hlenN : s.disk.length ≤ NULL_PTR := by rw [hlen]; decide
  by_cases h1 : name.length = 0 ∨ name.length > 4
  · rw [create_file_invalidName h1] at h
    simp only [PyResult.ok.injEq, Prod.mk.injEq] at h
    obtain ⟨-, rfl⟩ := h
    exact hWFs
  by_cases h2 : (dirLookup s.directory name).isSome = true
  · rw [create_file_duplicate h1 h2] at h
    simp only [PyResult.ok.injEq, Prod.mk.injEq] at h
    obtain ⟨-, rfl⟩ := h
    exact hWFs
  have hfresh : dirLookup s.directory name = none := by
    rcases Option.isSome_iff_exists.not.mp h2 with h2'
    push_neg at h2'
    cases hd : dirLookup s.directory name with
    | none => rfl
    | some v => exact absurd hd (h2' v)
  by_cases h3 : content.length = 0
  · rw [create_file_empty h1 hfresh h3] at h
    simp only [PyResult.ok.injEq, Prod.mk.injEq] at h
    obtain ⟨-, rfl⟩ := h
    exact hWFs
  by_cases h4 : s.free_size < content.length
  · rw [create_file_insufficient h1 hfresh h3 h4] at h
    simp only [PyResult.ok.injEq, Prod.mk.injEq] at h
    obtain ⟨-, rfl⟩ := h
    exact hWFs
  have hspace : content.length ≤ s.free_size := Nat.not_lt.mp h4
  rw [create_file_success hlenN hchain hfs h1 hfresh h3 hspace] at h
  simp only [PyResult.ok.injEq, Prod.mk.injEq] at h
  obtain ⟨-, rfl⟩ := h
  -- abbreviations for the success state
  set n := content.length with hn
  have hnF : n ≤ F.length := by omega
  have hFnd : F.Nodup := hnd.of_append_left
  have hAnd : (F.take n).Nodup := (List.take_sublist n F).nodup hFnd
  have hAmem : ∀ a ∈ F.take n, a ∈ F := fun a ha => (List.take_sublist n F).mem ha
  have hAbd : ∀ a ∈ F.take n, a < s.disk.length :=
    fun a ha => isChain_mem_lt hchain a (hAmem a ha)
  have hAlen : (F.take n).length = n := by
    rw [List.length_take]
    omega
  have hclen : content.data.length = n := rfl
  have hdisjF : List.Disjoint F files.flatten := (List.nodup_append.mp hnd).2.2
  have htdNodup : (F.take n ++ F.drop n).Nodup := by
    rw [List.take_append_drop]
    exact hFnd
  have hdisjAR : ∀ b ∈ F.drop n, b ∉ F.take n := by
    intro b hb hbA
    exact (List.nodup_append.mp htdNodup).2.2 hbA hb
  have hWlen : (writeChain s.disk content.data (F.take n)).length = s.disk.length :=
    writeChain_length content.data (F.take n) s.disk
  -- the new free chain
  have hRchain : isChain (writeChain s.disk content.data (F.take n))
      (chainHead (F.drop n)) (F.drop n) := by
    refine isChain_of_eq_on hWlen ?_ (isChain_drop hchain n)
    intro b hb
    exact ptrOf_writeChain_notMem (hdisjAR b hb)
  -- the new file chain
  have hAchain : isChain (writeChain s.disk content.data (F.take n))
      (chainHead F) (F.take n) := by
    rw [← chainHead_take (by omega : 1 ≤ n)]
    exact writeChain_chain content.data (F.take n) s.disk hlenN hAnd hAbd
      (by rw [hclen, hAlen])
  refine ⟨F.drop n, files ++ [F.take n], ?_, ?_, ?_, ?_, ?_, ?_, ?_⟩
  · show (writeChain s.disk content.data (F.take n)).length = NUM_BLOCKS
    rw [hWlen, hlen]
  · show isChain _ (headPtr (match F.drop n with | [] => none | j :: _ => some j)) _
    have : headPtr (match F.drop n with | [] => none | j :: _ => some j)
        = chainHead (F.drop n) := by
      cases hR : F.drop n with
      | nil => rfl
      | cons j rest => rfl
    rw [this]
    exact hRchain
  · show s.free_size - n = (F.drop n).length
    rw [List.length_drop]
    omega
  · show List.Forall₂ (entryMatch _) (s.directory ++ [(name, chainHead F, n)]) (files ++ [F.take n])
    refine forall₂_append_join ?_ ?_
    · refine forall₂_entryMatch_of_eq_on hWlen hfa ?_
      intro L hL a ha
      refine ptrOf_writeChain_notMem (fun haA => ?_)
      exact hdisjF (hAmem a haA) (List.mem_flatten.mpr ⟨L, hL, ha⟩)
    · exact List.Forall₂.cons ⟨hAchain, hAlen⟩ List.Forall₂.nil
  · show (F.drop n ++ (files ++ [F.take n]).flatten).Nodup
    have hperm : (F.drop n ++ (files ++ [F.take n]).flatten).Perm (F ++ files.flatten) := by
      have : (files ++ [F.take n]).flatten = files.flatten ++ F.take n := by simp
      rw [this]
      have := perm_create_shuffle (F.take n) (F.drop n) files.flatten
      rwa [List.take_append_drop] at this
    exact hperm.nodup_iff.mpr hnd
  · show ∀ i < NUM_BLOCKS, i ∈ F.drop n ++ (files ++ [F.take n]).flatten
    intro i hi
    have hperm : (F.drop n ++ (files ++ [F.take n]).flatten).Perm (F ++ files.flatten) := by
      have : (files ++ [F.take n]).flatten = files.flatten ++ F.take n := by simp
      rw [this]
      have := perm_create_shuffle (F.take n) (F.drop n) files.flatten
      rwa [List.take_append_drop] at this
    exact hperm.mem_iff.mpr (hcover i hi)
  · show ((s.directory ++ [(name, chainHead F, n)]).map Prod.fst).Nodup
    rw [List.map_append]
    rw [List.nodup_append]
    refine ⟨hkeys, List.nodup_singleton _, ?_⟩
    intro x hx hy
    simp only [List.map_cons, List.map_nil, List.mem_singleton] at hy
    rw [hy] at hx
    exact (dirLookup_eq_none_iff s.directory name).mp hfresh hx

/-! ## `delete_file`: characterization and preservation -/

theorem delete_file_notFound {s : FS} {name : String}
    (h : dirLookup s.directory name = none) :
    delete_file s name = .ok (none, s) := by
  unfold delete_file
  rw [h]

/-- Deleting a present file whose recorded start heads the genuine chain
`L`: the walk pushes exactly `L` onto the free list and reports `L.length`
blocks freed. -/
theorem delete_file_found {s : FS} {name : String} {st len : Nat} {L : List Nat}
    (hlen : s.disk.length ≤ NULL_PTR)
    (hlook : dirLookup s.directory name = some (st, len))
    (hchain : isChain s.disk st L)
    (hnd : L.Nodup)
    (hfuel : L.length < WALK_FUEL) :
    delete_file s name =
      .ok (some L.length,
        { disk := (rollbackAll s.disk s.free_head s.free_size L).1
          directory := dirErase s.directory name
          free_head := (rollbackAll s.disk s.free_head s.free_size L).2.1
          free_size := (rollbackAll s.disk s.free_head s.free_size L).2.2 }) := by
  unfold delete_file
  simp only [hlook]
  rw [deleteLoop_chain L s.disk WALK_FUEL s.free_head s.free_size st [] 0 hlen hchain
    hnd (by simp) hfuel]
  simp

theorem WF_delete {s : FS} {name : String} {r : Option Nat} {s' : FS}
    (hWF : s.WF) (h : delete_file s name = .ok (r, s')) : s'.WF := by
  obtain ⟨F, files, hlen, hchain, hfs, hfa, hnd, hcover, hkeys⟩ := hWF
  have hWFs : s.WF := ⟨F, files, hlen, hchain, hfs, hfa, hnd, hcover, hkeys⟩
  have hlenN : s.disk.length ≤ NULL_PTR := by rw [hlen]; decide
  cases hlook : dirLookup s.directory name with
  | none =>
    rw [delete_file_notFound hlook] at h
    simp only [PyResult.ok.injEq, Prod.mk.injEq] at h
    obtain ⟨-, rfl⟩ := h
    exact hWFs
  | some v =>
    obtain ⟨st, len⟩ := v
    obtain ⟨pre, post, hdir, hpre, herase⟩ := dirLookup_some_split hlook
    rw [hdir] at hfa
    obtain ⟨fpre, files', hfeq, hfa1, hfa2⟩ := forall₂_append_split hfa
    cases hfa2 with
    | cons hab htail =>
      rename_i L fpost
      have hLchain : isChain s.disk st L := hab.1
      have hflatten : files.flatten = fpre.flatten ++ (L ++ fpost.flatten) := by
        rw [hfeq]
        simp
      have hflnd : files.flatten.Nodup := hnd.of_append_right
      have hmidnd : (L ++ fpost.flatten).Nodup := by
        rw [hflatten] at hflnd
        exact hflnd.of_append_right
      have hLnd : L.Nodup := hmidnd.of_append_left
      have hLbd : ∀ a ∈ L, a < s.disk.length := isChain_mem_lt hLchain
      have hLF : ∀ a ∈ L, a ∉ F := by
        intro a ha haF
        exact (List.nodup_append.mp hnd).2.2 haF (by rw [hflatten]; simp [ha])
      have hfuel : L.length < WALK_FUEL := by
        have := nodup_bounded_length hLnd hLbd
        have hW : WALK_FUEL = 65538 := rfl
        have hN := NUM_BLOCKS_eq
        omega
      rw [delete_file_found hlenN hlook hLchain hLnd hfuel] at h
      simp only [PyResult.ok.injEq, Prod.mk.injEq] at h
      obtain ⟨-, rfl⟩ := h
      -- disjointness facts for the other entries' chains
      have hpreL : ∀ M ∈ fpre, ∀ a ∈ M, a ∉ L := by
        intro M hM a ha haL
        rw [hflatten] at hflnd
        exact (List.nodup_append.mp hflnd).2.2 (List.mem_flatten.mpr ⟨M, hM, ha⟩)
          (by simp [haL])
      have hpostL : ∀ M ∈ fpost, ∀ a ∈ M, a ∉ L := by
        intro M hM a ha haL
        exact (List.nodup_append.mp hmidnd).2.2 haL (List.mem_flatten.mpr ⟨M, hM, ha⟩)
      have hrblen : (rollbackAll s.disk s.free_head s.free_size L).1.length = s.disk.length :=
        rollbackAll_disk_length L s.disk s.free_head s.free_size
      have hperm : ((L.reverse ++ F) ++ (fpre ++ fpost).flatten).Perm (F ++ files.flatten) := by
        rw [List.flatten_append, hflatten]
        exact perm_delete_shuffle L F fpre.flatten fpost.flatten
      refine ⟨L.reverse ++ F, fpre ++ fpost, ?_, ?_, ?_, ?_, ?_, ?_, ?_⟩
      · show (rollbackAll s.disk s.free_head s.free_size L).1.length = NUM_BLOCKS
        rw [hrblen, hlen]
      · exact rollbackAll_chain L F s.disk s.free_head s.free_size hlenN hLnd hLbd hLF hchain
      · show (rollbackAll s.disk s.free_head s.free_size L).2.2 = (L.reverse ++ F).length
        rw [rollbackAll_free_size]
        simp only [List.length_append, List.length_reverse]
        omega
      · rw [herase]
        refine forall₂_append_join ?_ ?_
        · refine forall₂_entryMatch_of_eq_on hrblen hfa1 ?_
          intro M hM a ha
          exact ptrOf_rollbackAll_notMem (hpreL M hM a ha)
        · refine forall₂_entryMatch_of_eq_on hrblen htail ?_
          intro M hM a ha
          exact ptrOf_rollbackAll_notMem (hpostL M hM a ha)
      · exact hperm.nodup_iff.mpr hnd
      · intro i hi
        exact hperm.mem_iff.mpr (hcover i hi)
      · rw [herase]
        have hsub : List.Sublist ((pre ++ post).map Prod.fst)
            ((pre ++ (name, st, len) :: post).map Prod.fst) := by
          simp only [List.map_append, List.map_cons]
          exact (List.sublist_cons_self _ _).append_left _
        rw [hdir] at hkeys
        exact hkeys.sublist hsub

/-! ## `read_file`: characterization -/

theorem read_file_notFound {s : FS} {name : String}
    (h : dirLookup s.directory name = none) :
    read_file s name = .ok none := by
  unfold read_file
  rw [h]

/-- Reading a present file whose recorded start heads the genuine chain
`L` returns the chain's decoded characters. -/
theorem read_file_found {s : FS} {name : String} {st len : Nat} {L : List Nat}
    (hlen : s.disk.length ≤ NULL_PTR)
    (hlook : dirLookup s.directory name = some (st, len))
    (hchain : isChain s.disk st L)
    (hnd : L.Nodup)
    (hfuel : L.length < WALK_FUEL) :
    read_file s name =
      .ok (some (String.mk (L.map (fun i => charOfData (dataOf s.disk i))))) := by
  unfold read_file
  simp only [hlook]
  rw [readLoop_chain L s.disk WALK_FUEL st [] [] hlen hchain hnd (by simp) hfuel]
  simp

/-! ## Extracting a file's chain from the invariant -/

/-- In a well-formed state, every directory entry `(start, len)` owns a
genuine duplicate-free chain of exactly `len` in-bounds blocks. -/
theorem WF_lookup_chain {s : FS} (hWF : s.WF) {name : String} {st len : Nat}
    (hlook : dirLookup s.directory name = some (st, len)) :
    ∃ L, isChain s.disk st L ∧ L.length = len ∧ L.Nodup ∧
      (∀ a ∈ L, a < s.disk.length) ∧ L.length < WALK_FUEL := by
  obtain ⟨F, files, hlen, hchain, hfs, hfa, hnd, hcover, hkeys⟩ := hWF
  obtain ⟨pre, post, hdir, -, -⟩ := dirLookup_some_split hlook
  rw [hdir] at hfa
  obtain ⟨fpre, files', hfeq, hfa1, hfa2⟩ := forall₂_append_split hfa
  cases hfa2 with
  | cons hab htail =>
    rename_i L fpost
    have hflnd : files.flatten.Nodup := hnd.of_append_right
    have hLnd : L.Nodup := by
      rw [hfeq] at hflnd
      simp only [List.flatten_append, List.flatten_cons] at hflnd
      exact hflnd.of_append_right.of_append_left
    have hLbd : ∀ a ∈ L, a < s.disk.length := isChain_mem_lt hab.1
    refine ⟨L, hab.1, hab.2, hLnd, hLbd, ?_⟩
    have := nodup_bounded_length hLnd hLbd
    have hW : WALK_FUEL = 65538 := rfl
    have hN := NUM_BLOCKS_eq
    omega

/-- In a well-formed state the free list is a genuine duplicate-free chain
of exactly `free_size` in-bounds blocks. -/
theorem WF_free_chain {s : FS} (hWF : s.WF) :
    ∃ F, isChain s.disk (headPtr s.free_head) F ∧ s.free_size = F.length ∧ F.Nodup ∧
      (∀ a ∈ F, a < s.disk.length) := by
  obtain ⟨F, files, hlen, hchain, hfs, hfa, hnd, hcover, hkeys⟩ := hWF
  exact ⟨F, hchain, hfs, hnd.of_append_left, isChain_mem_lt hchain⟩

/-! ## Preservation along operation sequences -/

theorem WF_applyOp {s : FS} (hWF : s.WF) (op : FsOp) : (applyOp s op).WF := by
  cases op with
  | create name content =>
    cases h : create_file s name content with
    | ok rs =>
      obtain ⟨r, s'⟩ := rs
      have heq : applyOp s (.create name content) = s' := by
        unfold applyOp
        simp only [h]
      rw [heq]
      exact WF_create hWF h
    | indexError =>
      have heq : applyOp s (.create name content) = s := by
        unfold applyOp
        simp only [h]
      rw [heq]
      exact hWF
    | fuelOut =>
      have heq : applyOp s (.create name content) = s := by
        unfold applyOp
        simp only [h]
      rw [heq]
      exact hWF
  | delete name =>
    cases h : delete_file s name with
    | ok rs =>
      obtain ⟨r, s'⟩ := rs
      have heq : applyOp s (.delete name) = s' := by
        unfold applyOp
        simp only [h]
      rw [heq]
      exact WF_delete hWF h
    | indexError =>
      have heq : applyOp s (.delete name) = s := by
        unfold applyOp
        simp only [h]
      rw [heq]
      exact hWF
    | fuelOut =>
      have heq : applyOp s (.delete name) = s := by
        unfold applyOp
        simp only [h]
      rw [heq]
      exact hWF

theorem WF_applyOps {s : FS} (hWF : s.WF) (ops : List FsOp) : (applyOps s ops).WF := by
  induction ops generalizing s with
  | nil => exact hWF
  | cons op rest ih => exact ih (WF_applyOp hWF op)

/-! ## Shared helper facts for the claims -/

theorem WF_boot : boot.WF :=
  WF_init initialState rfl (by simp [initialState])

theorem WF_disk_le {s : FS} (hWF : s.WF) : s.disk.length ≤ NULL_PTR := by
  obtain ⟨F, files, hlen, -⟩ := hWF
  rw [hlen]
  decide

theorem WF_disk_eq {s : FS} (hWF : s.WF) : s.disk.length = NUM_BLOCKS := by
  obtain ⟨F, files, hlen, -⟩ := hWF
  exact hlen

theorem FS.ext' {a b : FS} (h1 : a.disk = b.disk) (h2 : a.directory = b.directory)
    (h3 : a.free_head = b.free_head) (h4 : a.free_size = b.free_size) : a = b := by
  cases a
  cases b
  simp_all

theorem dirLookup_mem {d : List (String × Nat × Nat)} {name : String} {v : Nat × Nat}
    (h : dirLookup d name = some v) : (name, v) ∈ d := by
  induction d with
  | nil => simp [dirLookup] at h
  | cons e rest ih =>
    obtain ⟨n, w⟩ := e
    by_cases hn : n = name
    · subst hn
      rw [dirLookup, if_pos rfl] at h
      obtain rfl : w = v := by injection h
      exact List.mem_cons_self _ _
    · rw [dirLookup, if_neg hn] at h
      exact List.mem_cons_of_mem _ (ih h)

theorem forall₂_getD {α β : Type} {R : α → β → Prop}
    {l₁ : List α} {l₂ : List β} (h : List.Forall₂ R l₁ l₂) (d₁ : α) (d₂ : β) :
    ∀ i < l₁.length, R (l₁.getD i d₁) (l₂.getD i d₂) := by
  induction h with
  | nil => intro i hi; simp at hi
  | cons hab htail ih =>
    intro i hi
    cases i with
    | zero => exact hab
    | succ i => exact ih i (by simpa using hi)

theorem getD_map_lt {A : List Nat} {f : Nat → Char} {i : Nat} (h : i < A.length) (d : Char) :
    (A.map f).getD i d = f (A.getD i 0) := by
  induction A generalizing i with
  | nil => simp at h
  | cons a rest ih =>
    cases i with
    | zero => rfl
    | succ i => exact ih (by simpa using h)

theorem char_ofNat_toNat_lt {n : Nat} (h : n < 65536) : (Char.ofNat n).toNat < 65536 := by
  by_cases hv : n.isValidChar
  · have h1 : (Char.ofNat n).toNat = n := by
      rw [Char.ofNat, dif_pos hv]
      rfl
    omega
  · have h0 : (Char.ofNat n).toNat = 0 := by
      rw [Char.ofNat, dif_neg hv]
      rfl
    omega

theorem charOfData_toNat_lt {n : Nat} (h : n < 65536) : (charOfData n).toNat < 65536 := by
  unfold charOfData
  split
  · decide
  · exact char_ofNat_toNat_lt h

/-- Decoding the written data fields recovers the content characters, as
long as every character's code point is in `1 .. 65535`. -/
theorem map_charOfData_eq {W : List Nat} {cs : List Char} {A : List Nat}
    (h : List.Forall₂ (fun c a => dataOf W a = c.toNat % 65536) cs A)
    (hchars : ∀ c ∈ cs, 1 ≤ c.toNat ∧ c.toNat ≤ 65535) :
    A.map (fun i => charOfData (dataOf W i)) = cs := by
  induction h with
  | nil => rfl
  | cons hab htail ih =>
    rename_i c a cs' A'
    have hc := hchars c (List.mem_cons_self c cs')
    have hsmall : c.toNat % 65536 = c.toNat := by omega
    simp only [List.map_cons]
    rw [hab, hsmall]
    have hch : charOfData c.toNat = c := by
      unfold charOfData
      rw [if_neg (by omega)]
      exact Char.ofNat_toNat c
    rw [hch, ih (fun x hx => hchars x (List.mem_cons_of_mem c hx))]

/-! ## Claim C8 -/

/-- **C8**: for all integers `c` and `s`, `unpack_block (pack_block c s)`
equals `(c & 0xFFFF, s & 0xFFFF)` — each field reduced mod `2^16`, which is
what Python's `& 0xFFFF` computes on arbitrary (also negative) integers —
and in particular the round trip is the identity on pairs already within
the 16-bit field width. -/
theorem C8_codec_round_trip :
    (∀ c s : Int, unpack_block (pack_block c s) = (c % 65536, s % 65536)) ∧
    (∀ c s : Int, 0 ≤ c → c < 65536 → 0 ≤ s → s < 65536 →
      unpack_block (pack_block c s) = (c, s)) := by
  constructor
  · intro c s
    simp only [pack_block, unpack_block, Prod.mk.injEq]
    constructor <;> omega
  · intro c s hc0 hc1 hs0 hs1
    simp only [pack_block, unpack_block, Prod.mk.injEq]
    constructor <;> omega

/-- **C8 witness**: the round trip at the concrete in-range pair
`(content, successor) = (65, 300)`. -/
theorem C8_codec_round_trip_witness : unpack_block (pack_block 65 300) = (65, 300) :=
  C8_codec_round_trip.2 65 300 (by decide) (by decide) (by decide) (by decide)

/-! ## Claim C5 -/

/-- A state with a stale directory entry (for example the state some
earlier `create_file` calls leave behind). -/
def dirtyState : FS :=
  { disk := List.replicate NUM_BLOCKS 0
    directory := [("a", 0, 1)]
    free_head := none
    free_size := 0 }

/-- **C5 counterexample**: `init_disk` does **not** clear the directory —
its `global` statement lists only `disk`, `free_head` and `free_size` — so
called in the concrete state `dirtyState` it leaves the directory
non-empty, refuting the claim's "clears the directory; ... hard-resets all
state". -/
theorem C5_counterexample : (init_disk dirtyState).directory ≠ [] := by
  rw [init_disk_directory]
  decide

theorem initFold_getD (M : List Nat) (hm : NUM_BLOCKS ≤ M.length) (i : Nat)
    (hi : i < NUM_BLOCKS) : (initFold M).getD i 0 = initBlock i := by
  unfold initFold
  rw [initFoldAux_getD M NUM_BLOCKS hm i, if_pos hi]

theorem getD_of_le {l : List Nat} {i : Nat} (h : l.length ≤ i) : l.getD i 0 = 0 := by
  rw [List.getD_eq_getElem?_getD, List.getElem?_eq_none h]
  rfl

theorem list_eq_of_getD : ∀ (l₁ l₂ : List Nat), l₁.length = l₂.length →
    (∀ i, l₁.getD i 0 = l₂.getD i 0) → l₁ = l₂ := by
  intro l₁
  induction l₁ with
  | nil =>
    intro l₂ hlen _
    cases l₂ with
    | nil => rfl
    | cons b r2 => simp at hlen
  | cons a r ih =>
    intro l₂ hlen h
    cases l₂ with
    | nil => simp at hlen
    | cons b r2 =>
      have h0 : a = b := h 0
      have hr : r = r2 := ih r2 (by simpa using hlen) (fun i => h (i + 1))
      rw [h0, hr]

theorem initFold_idem (L : List Nat) (h32 : L.length = NUM_BLOCKS) :
    initFold (initFold L) = initFold L := by
  apply list_eq_of_getD
  · rw [initFold_length, initFold_length]
  · intro i
    rcases Nat.lt_or_ge i NUM_BLOCKS with hi | hi
    · rw [initFold_getD (initFold L) (by rw [initFold_length]; exact Nat.le_of_eq h32.symm) i hi,
        initFold_getD L (Nat.le_of_eq h32.symm) i hi]
    · rw [getD_of_le (by rw [initFold_length, initFold_length, h32]; exact hi),
        getD_of_le (by rw [initFold_length, h32]; exact hi)]

/-- **C5 (amended)**: `init_disk`, called in any (32-block) state, sets
every block `i` to content `0` with successor `i+1` (last block:
`NULL_PTR`), sets `free_head = 0` and `free_size = NUM_BLOCKS`, and is
idempotent — but it leaves the directory exactly as it was instead of
clearing it, so it hard-resets only the disk and the free list. -/
theorem C5_init_disk (s : FS) (h32 : s.disk.length = NUM_BLOCKS) :
    (∀ i < NUM_BLOCKS,
      dataOf (init_disk s).disk i = 0 ∧
      ptrOf (init_disk s).disk i = if i + 1 < NUM_BLOCKS then i + 1 else NULL_PTR) ∧
    (init_disk s).free_head = some 0 ∧
    (init_disk s).free_size = NUM_BLOCKS ∧
    (init_disk s).directory = s.directory ∧
    init_disk (init_disk s) = init_disk s := by
  refine ⟨?_, init_disk_free_head s, init_disk_free_size s, init_disk_directory s, ?_⟩
  · intro i hi
    exact ⟨dataOf_init s h32 hi, ptrOf_init s h32 hi⟩
  · apply FS.ext'
    · show (init_disk (init_disk s)).disk = (init_disk s).disk
      rw [init_disk_disk (init_disk s), init_disk_disk s]
      exact initFold_idem s.disk h32
    · rw [init_disk_directory, init_disk_directory]
    · rw [init_disk_free_head, init_disk_free_head]
    · rw [init_disk_free_size, init_disk_free_size]

/-- **C5 witness**: the amended claim applied at the module-load state. -/
theorem C5_init_disk_witness :
    (init_disk initialState).free_size = NUM_BLOCKS ∧
    (init_disk initialState).directory = initialState.directory ∧
    init_disk (init_disk initialState) = init_disk initialState := by
  have h := C5_init_disk initialState (by simp [initialState])
  exact ⟨h.2.2.1, h.2.2.2.1, h.2.2.2.2⟩

/-! ## Claim C7 -/

/-- The states of the demo script (`demo_enunciado`), one per operation. -/
def demoS1 : FS := applyOp boot (.create "f1" "Pernambuco")

def demoS2 : FS := applyOp demoS1 (.create "f2" "Sao Paulo")

def demoS3 : FS := applyOp demoS2 (.create "f3" "Alagoas")

def demoS5 : FS := applyOp demoS3 (.delete "f2")

def demoS6 : FS := applyOp demoS5 (.create "f4" "Santa Catarina")

/-- **C7**: the demo scenario.  From `init` with capacity 32:
`create("f1","Pernambuco")`, `create("f2","Sao Paulo")`,
`create("f3","Alagoas")` succeed with `free_size` 22, 13, 6;
`create("f4","Santa Catarina")` then fails with `InsufficientSpace`
leaving the state (hence `free_size = 6`) unchanged; `delete("f2")` frees
9 blocks giving `free_size = 15`; retrying `create("f4","Santa Catarina")`
succeeds giving `free_size = 1`; `read("f4")` returns `"Santa Catarina"`
and `read("f2")` fails with `NotFound` (`None`). -/
theorem C7_demo_scenario :
    create_file boot "f1" "Pernambuco" = .ok (.success, demoS1) ∧ demoS1.free_size = 22 ∧
    create_file demoS1 "f2" "Sao Paulo" = .ok (.success, demoS2) ∧ demoS2.free_size = 13 ∧
    create_file demoS2 "f3" "Alagoas" = .ok (.success, demoS3) ∧ demoS3.free_size = 6 ∧
    create_file demoS3 "f4" "Santa Catarina" = .ok (.insufficientSpace, demoS3) ∧
    delete_file demoS3 "f2" = .ok (some 9, demoS5) ∧ demoS5.free_size = 15 ∧
    create_file demoS5 "f4" "Santa Catarina" = .ok (.success, demoS6) ∧
    demoS6.free_size = 1 ∧
    read_file demoS6 "f4" = .ok (some "Santa Catarina") ∧
    read_file demoS6 "f2" = .ok none := by
  decide

/-! ## Claim C1 -/

/-- **C1 counterexample**: the claim quantifies over *every* state produced
by `init_disk`, but `init_disk` does not clear the directory.  Applied to
the concrete state `dirtyState` (which records a file `"a"` at block 0 of
length 1) it produces a state in which block 0 is simultaneously on the
free list and required to be a one-block chain of file `"a"` — no
assignment of chains satisfies the ownership partition, already for the
empty operation sequence. -/
theorem C1_counterexample : ¬ (applyOps (init_disk dirtyState) []).WF := by
  intro hWF
  have h0 : applyOps (init_disk dirtyState) [] = init_disk dirtyState := rfl
  rw [h0] at hWF
  obtain ⟨F, files, hlen, hchain, hfs, hfa, hnd, hcover, hkeys⟩ := hWF
  rw [init_disk_directory] at hfa
  have hdir : dirtyState.directory = [("a", 0, 1)] := rfl
  rw [hdir] at hfa
  cases hfa with
  | cons hab htail =>
    rename_i L files'
    have hchainL : isChain (init_disk dirtyState).disk 0 L := hab.1
    have hlenL : L.length = 1 := hab.2
    cases L with
    | nil => simp at hlenL
    | cons a rest =>
      cases rest with
      | cons b rest' => simp at hlenL
      | nil =>
        obtain ⟨rfl, -, hnil⟩ := hchainL
        rw [isChain_nil] at hnil
        have hptr : ptrOf (init_disk dirtyState).disk 0 = 1 := by
          rw [ptrOf_init dirtyState (by simp [dirtyState]) (by decide)]
          decide
        rw [hptr] at hnil
        exact absurd hnil (by decide)

/-- **C1 (amended)**: for every sequence of `create_file`/`delete_file`
operations applied to a state produced by `init_disk` **from a state whose
directory is empty** (such as the module-load state; `init_disk` does not
clear the directory, which the counterexample exploits), the global
ownership partition holds: the free list and the directory entries' chains
are genuine, pairwise disjoint, duplicate-free, together cover the index
range `0..NUM_BLOCKS-1`, and `free_size` equals the number of hops from
`free_head` to `NULL_PTR` (the length of the free chain).  This is exactly
`FS.WF`. -/
theorem C1_ownership_partition (s : FS) (hdir : s.directory = [])
    (h32 : s.disk.length = NUM_BLOCKS) (ops : List FsOp) :
    (applyOps (init_disk s) ops).WF :=
  WF_applyOps (WF_init s hdir h32) ops

/-- **C1 witness**: the partition after `init_disk` from the module-load
state and the empty operation sequence. -/
theorem C1_ownership_partition_witness : (applyOps (init_disk initialState) []).WF :=
  C1_ownership_partition initialState rfl (by simp [initialState]) []

/-! ## Claim C2 -/

/-- **C2**: given a valid, fresh name and non-empty content, in a
well-formed state `create_file` fails — necessarily with
`InsufficientSpace`, the only failure it can then produce — if and only if
`length(content) > free_size` at call time, and such a failed call returns
the state completely unchanged (disk, directory, `free_head` and
`free_size`). -/
theorem C2_space_accounting {s : FS} {name content : String}
    (hWF : s.WF)
    (hname : ¬(name.length = 0 ∨ name.length > 4))
    (hfresh : dirLookup s.directory name = none)
    (hne : content.length ≠ 0) :
    ∃ r s', create_file s name content = .ok (r, s') ∧
      (r = .insufficientSpace ∨ r = .success) ∧
      (r = .insufficientSpace ↔ content.length > s.free_size) ∧
      (r = .insufficientSpace → s' = s) := by
  by_cases hsp : s.free_size < content.length
  · exact ⟨.insufficientSpace, s, create_file_insufficient hname hfresh hne hsp,
      Or.inl rfl, iff_of_true rfl hsp, fun _ => rfl⟩
  · obtain ⟨F, hchain, hfs, hFnd, hFbd⟩ := WF_free_chain hWF
    have hsp' : content.length ≤ s.free_size := Nat.not_lt.mp hsp
    exact ⟨.success, _,
      create_file_success (WF_disk_le hWF) hchain hfs hname hfresh hne hsp',
      Or.inr rfl, iff_of_false (by decide) hsp, fun h => absurd h (by decide)⟩

/-- **C2 witness**: at the boot state with a 33-character content
(33 > 32 = `free_size`), instantiating the theorem concretely. -/
theorem C2_space_accounting_witness :
    ∃ r s', create_file boot "a" "aaaaaaaaaaaaaaaaaaaaaaaaaaaaaaaaa" = .ok (r, s') ∧
      (r = .insufficientSpace ∨ r = .success) ∧
      (r = .insufficientSpace ↔ "aaaaaaaaaaaaaaaaaaaaaaaaaaaaaaaaa".length > boot.free_size) ∧
      (r = .insufficientSpace → s' = boot) :=
  C2_space_accounting WF_boot (by decide) (by decide) (by decide)

/-! ## Claim C4 -/

/-- **C4**: deleting any name present in a well-formed state's directory
with recorded entry `(start, length)` succeeds, returns a freed count of
exactly `length`, and increases `free_size` by exactly `length`. -/
theorem C4_delete_reclaims {s : FS} {name : String} {st len : Nat}
    (hWF : s.WF) (hlook : dirLookup s.directory name = some (st, len)) :
    ∃ s', delete_file s name = .ok (some len, s') ∧
      s'.free_size = s.free_size + len := by
  obtain ⟨L, hchain, hLlen, hnd, hbd, hfuel⟩ := WF_lookup_chain hWF hlook
  refine ⟨{ disk := (rollbackAll s.disk s.free_head s.free_size L).1
            directory := dirErase s.directory name
            free_head := (rollbackAll s.disk s.free_head s.free_size L).2.1
            free_size := (rollbackAll s.disk s.free_head s.free_size L).2.2 }, ?_, ?_⟩
  · rw [delete_file_found (WF_disk_le hWF) hlook hchain hnd hfuel, hLlen]
  · show (rollbackAll s.disk s.free_head s.free_size L).2.2 = s.free_size + len
    rw [rollbackAll_free_size, hLlen]

/-- A one-file state used by several witnesses: boot followed by
`create_file("f1", "ab")`. -/
def exampleS1 : FS := applyOp boot (.create "f1" "ab")

theorem WF_exampleS1 : exampleS1.WF := WF_applyOp WF_boot (.create "f1" "ab")

/-- **C4 witness**: deleting the 2-block file `"f1"` from a concrete
one-file state frees exactly 2 blocks. -/
theorem C4_delete_reclaims_witness :
    ∃ s', delete_file exampleS1 "f1" = .ok (some 2, s') ∧
      s'.free_size = exampleS1.free_size + 2 :=
  @C4_delete_reclaims exampleS1 "f1" 0 2 WF_exampleS1 (by decide)

/-! ## Claim C9 -/

/-- The pointer-validity part of the global ownership invariant (spec §3),
which is all C9 needs: every block's stored successor is `NULL_PTR` or a
valid index, and every directory entry's recorded start is a valid index
("`start` is a valid Storage index owned by that file"). -/
def ptrWF (s : FS) : Prop :=
  s.disk.length = NUM_BLOCKS ∧
  (∀ i < NUM_BLOCKS, ptrOf s.disk i = NULL_PTR ∨ ptrOf s.disk i < NUM_BLOCKS) ∧
  (∀ e ∈ s.directory, e.2.1 < NUM_BLOCKS)

/-- Under valid successors, the read walk terminates without any
out-of-range `disk[idx]` access: the running index is always `NULL_PTR`
(stop) or in range, and the duplicate-free `seen` set of in-range indices
bounds the number of steps. -/
theorem readLoop_safe (d : List Nat)
    (hptr : ∀ i < d.length, ptrOf d i = NULL_PTR ∨ ptrOf d i < d.length)
    (_hdl : d.length < NULL_PTR) :
    ∀ (fuel : Nat) (idx : Nat) (seen : List Nat) (acc : List Char),
      (idx = NULL_PTR ∨ idx < d.length) → seen.Nodup → (∀ a ∈ seen, a < d.length) →
      d.length + 1 ≤ fuel + seen.length →
      ∃ cs, readLoop d fuel idx seen acc = .ok cs := by
  intro fuel
  induction fuel with
  | zero =>
    intro idx seen acc hidx hnd hbd hcnt
    have := nodup_bounded_length hnd hbd
    omega
  | succ fuel ih =>
    intro idx seen acc hidx hnd hbd hcnt
    by_cases h1 : idx = NULL_PTR
    · exact ⟨acc, by rw [readLoop, if_pos h1]⟩
    have hlt : idx < d.length := by
      rcases hidx with h | h
      · exact absurd h h1
      · exact h
    by_cases h2 : idx ∈ seen
    · exact ⟨acc, by rw [readLoop, if_neg h1, if_pos h2]⟩
    · obtain ⟨cs, hcs⟩ := ih (ptrOf d idx) (idx :: seen) (acc ++ [charOfData (dataOf d idx)])
        (hptr idx hlt) (List.nodup_cons.mpr ⟨h2, hnd⟩)
        (fun a ha => by
          rcases List.mem_cons.mp ha with rfl | ha
          · exact hlt
          · exact hbd a ha)
        (by simp only [List.length_cons]; omega)
      exact ⟨cs, by rw [readLoop, if_neg h1, if_neg h2, if_pos hlt]; exact hcs⟩

/-- Under valid successors the delete walk also stays in bounds.  The walk
writes the disk, but every write happens at the index just added to
`seen`, and every read happens at an index not in `seen`, so the
successors the walk follows are always original, valid ones. -/
theorem deleteLoop_safe :
    ∀ (fuel : Nat) (d : List Nat) (fh : Option Nat) (fs idx : Nat) (seen : List Nat)
      (freed : Nat),
      d.length < NULL_PTR →
      (∀ i < d.length, i ∉ seen → ptrOf d i = NULL_PTR ∨ ptrOf d i < d.length) →
      (idx = NULL_PTR ∨ idx < d.length) → seen.Nodup → (∀ a ∈ seen, a < d.length) →
      d.length + 1 ≤ fuel + seen.length →
      ∃ res, deleteLoop fuel d fh fs idx seen freed = .ok res := by
  intro fuel
  induction fuel with
  | zero =>
    intro d fh fs idx seen freed hdl hptr hidx hnd hbd hcnt
    have := nodup_bounded_length hnd hbd
    omega
  | succ fuel ih =>
    intro d fh fs idx seen freed hdl hptr hidx hnd hbd hcnt
    by_cases h1 : idx = NULL_PTR
    · exact ⟨_, by rw [deleteLoop, if_pos h1]⟩
    have hlt : idx < d.length := by
      rcases hidx with h | h
      · exact absurd h h1
      · exact h
    by_cases h2 : idx ∈ seen
    · exact ⟨_, by rw [deleteLoop, if_neg h1, if_pos h2]⟩
    · have hlen1 : (d.set idx (packNat 0 (headPtr fh))).length = d.length :=
        List.length_set d idx _
      obtain ⟨res, hres⟩ := ih (d.set idx (packNat 0 (headPtr fh))) (some idx) (fs + 1)
        (ptrOf d idx) (idx :: seen) (freed + 1)
        (by rw [hlen1]; exact hdl)
        (by
          intro i hi hnotin
          rw [hlen1] at hi
          have hne : idx ≠ i := by
            intro h
            exact hnotin (h ▸ List.mem_cons_self idx seen)
          rw [ptrOf_set_ne hne, hlen1]
          exact hptr i hi (fun hmem => hnotin (List.mem_cons_of_mem idx hmem)))
        (by rw [hlen1]; exact hptr idx hlt h2)
        (List.nodup_cons.mpr ⟨h2, hnd⟩)
        (fun a ha => by
          rw [hlen1]
          rcases List.mem_cons.mp ha with rfl | ha
          · exact hlt
          · exact hbd a ha)
        (by rw [hlen1]; simp only [List.length_cons]; omega)
      refine ⟨res, ?_⟩
      rw [deleteLoop, if_neg h1, if_neg h2, if_pos hlt]
      simp only [pushFree]
      exact hres

/-- **C9**: in every state satisfying the pointer-validity part of the
global ownership invariant, the chain walks of `read_file` and
`delete_file` only ever index the disk with in-range values and terminate:
both operations return a result (`.ok`), never an uncaught `IndexError`
(and never run out of the walk fuel). -/
theorem C9_walks_in_bounds {s : FS} (h : ptrWF s) (name : String) :
    (∃ r, read_file s name = .ok r) ∧ (∃ r, delete_file s name = .ok r) := by
  obtain ⟨hlen, hptr, hstart⟩ := h
  have hdl : s.disk.length < NULL_PTR := by rw [hlen]; decide
  have hptr' : ∀ i < s.disk.length,
      ptrOf s.disk i = NULL_PTR ∨ ptrOf s.disk i < s.disk.length := by
    rw [hlen]
    exact hptr
  constructor
  · cases hlook : dirLookup s.directory name with
    | none => exact ⟨none, read_file_notFound hlook⟩
    | some v =>
      obtain ⟨st, len2⟩ := v
      have hst : st < s.disk.length := by
        rw [hlen]
        exact hstart (name, st, len2) (dirLookup_mem hlook)
      obtain ⟨cs, hcs⟩ := readLoop_safe s.disk hptr' hdl WALK_FUEL st [] []
        (Or.inr hst) (by simp) (by simp) (by rw [hlen]; decide)
      refine ⟨some (String.mk cs), ?_⟩
      unfold read_file
      simp only [hlook]
      rw [hcs]
  · cases hlook : dirLookup s.directory name with
    | none => exact ⟨(none, s), delete_file_notFound hlook⟩
    | some v =>
      obtain ⟨st, len2⟩ := v
      have hst : st < s.disk.length := by
        rw [hlen]
        exact hstart (name, st, len2) (dirLookup_mem hlook)
      obtain ⟨res, hres⟩ := deleteLoop_safe WALK_FUEL s.disk s.free_head s.free_size st [] 0
        hdl (fun i hi _ => hptr' i hi) (Or.inr hst) (by simp) (by simp)
        (by rw [hlen]; decide)
      obtain ⟨d', fh', fs', freed⟩ := res
      refine ⟨(some freed,
        { disk := d', directory := dirErase s.directory name,
          free_head := fh', free_size := fs' }), ?_⟩
      unfold delete_file
      simp only [hlook]
      rw [hres]

/-- **C9 witness**: at the concrete one-file state `exampleS1` (which
satisfies the pointer invariant, by evaluation) and the present name
`"f1"`. -/
theorem C9_walks_in_bounds_witness :
    (∃ r, read_file exampleS1 "f1" = .ok r) ∧
    (∃ r, delete_file exampleS1 "f1" = .ok r) :=
  C9_walks_in_bounds (by refine ⟨by decide, ?_, by decide⟩; decide) "f1"

/-! ## Claim C3 -/

/-- **C3 counterexample**: the claim quantifies over *every* non-empty
string; for `s = "\x00"` (one NUL character, length 1 ≤ 32 = `free_size`
at boot, with the valid fresh name `"a"`) `create_file` succeeds, but
`read_file` substitutes `'?'` for the stored 0 data field and returns
`"?"`, not `s`. -/
theorem C3_counterexample :
    create_file boot "a" "\x00" = .ok (.success, applyOp boot (.create "a" "\x00")) ∧
    read_file (applyOp boot (.create "a" "\x00")) "a" ≠ .ok (some "\x00") := by
  decide

/-- **C3 (amended)**: for every non-empty string whose characters all have
code points in `1 .. 65535` (`\x00` is read back as `'?'` and code points
above `0xFFFF` are truncated by the 16-bit data field — see C10), of
length at most the current `free_size`, and every valid fresh name,
`create_file` succeeds and a subsequent `read_file` returns exactly the
written string. -/
theorem C3_create_read_round_trip {s : FS} {name content : String}
    (hWF : s.WF)
    (hname : ¬(name.length = 0 ∨ name.length > 4))
    (hfresh : dirLookup s.directory name = none)
    (hne : content.length ≠ 0)
    (hspace : content.length ≤ s.free_size)
    (hchars : ∀ c ∈ content.data, 1 ≤ c.toNat ∧ c.toNat ≤ 65535) :
    ∃ s', create_file s name content = .ok (.success, s') ∧
      read_file s' name = .ok (some content) := by
  obtain ⟨F, hchain, hfs, hFnd, hFbd⟩ := WF_free_chain hWF
  have hlenN := WF_disk_le hWF
  have hlen32 := WF_disk_eq hWF
  have hnF : content.length ≤ F.length := by omega
  have hn1 : 1 ≤ content.length := by omega
  have hAnd : (F.take content.length).Nodup := (List.take_sublist content.length F).nodup hFnd
  have hAbd : ∀ a ∈ F.take content.length, a < s.disk.length :=
    fun a ha => hFbd a ((List.take_sublist content.length F).mem ha)
  have hAlen : (F.take content.length).length = content.length := by
    rw [List.length_take]
    omega
  have hclen : content.data.length = content.length := rfl
  refine ⟨{ disk := writeChain s.disk content.data (F.take content.length)
            directory := s.directory ++ [(name, chainHead F, content.length)]
            free_head := match F.drop content.length with | [] => none | j :: _ => some j
            free_size := s.free_size - content.length },
    create_file_success hlenN hchain hfs hname hfresh hne hspace, ?_⟩
  have hWlen : (writeChain s.disk content.data (F.take content.length)).length
      = s.disk.length := writeChain_length content.data (F.take content.length) s.disk
  have hAchain : isChain (writeChain s.disk content.data (F.take content.length))
      (chainHead F) (F.take content.length) := by
    rw [← chainHead_take hn1]
    exact writeChain_chain content.data (F.take content.length) s.disk hlenN hAnd hAbd
      (by rw [hclen, hAlen])
  have hlook : dirLookup (s.directory ++ [(name, chainHead F, content.length)]) name
      = some (chainHead F, content.length) :=
    dirLookup_append_self hfresh (chainHead F, content.length)
  have hfuel : (F.take content.length).length < WALK_FUEL := by
    have hF32 := nodup_bounded_length hFnd hFbd
    have hW : WALK_FUEL = 65538 := rfl
    have hN := NUM_BLOCKS_eq
    omega
  have hdata : List.Forall₂
      (fun c a => dataOf (writeChain s.disk content.data (F.take content.length)) a
        = c.toNat % 65536)
      content.data (F.take content.length) :=
    writeChain_data content.data (F.take content.length) s.disk hAnd hAbd
      (by rw [hclen, hAlen])
  have hmap : (F.take content.length).map
      (fun i => charOfData (dataOf (writeChain s.disk content.data (F.take content.length)) i))
      = content.data :=
    map_charOfData_eq hdata hchars
  rw [read_file_found (by rw [hWlen]; exact hlenN) hlook hAchain hAnd hfuel, hmap]

/-- **C3 witness**: the (amended) round trip at the boot state with name
`"a"` and content `"ab"`. -/
theorem C3_create_read_round_trip_witness :
    ∃ s', create_file boot "a" "ab" = .ok (.success, s') ∧
      read_file s' "a" = .ok (some "ab") :=
  C3_create_read_round_trip WF_boot (by decide) (by decide) (by decide) (by decide)
    (by decide)

/-! ## Claim C10 -/

theorem getD_default_irrel {α : Type} (l : List α) {i : Nat} (h : i < l.length) (d d' : α) :
    l.getD i d = l.getD i d' := by
  rw [List.getD_eq_getElem?_getD, List.getD_eq_getElem?_getD, List.getElem?_eq_getElem h]
  rfl

/-- **C10**: `create_file` stores each character's code point masked to 16
bits (`pack_block` masks `ord(ch)` with `0xFFFF`): whenever the `i`-th
character of the content has a code point above `65535`, the create call
still succeeds (the input is not rejected), the data field stored in the
`i`-th block of the new file's chain is `ord & 0xFFFF`, which differs from
the code point, and the subsequent `read_file` succeeds but returns a
string of the same length whose `i`-th character differs from the one
written. -/
theorem C10_ord_masked {s : FS} {name content : String} {i : Nat}
    (hWF : s.WF)
    (hname : ¬(name.length = 0 ∨ name.length > 4))
    (hfresh : dirLookup s.directory name = none)
    (hne : content.length ≠ 0)
    (hspace : content.length ≤ s.free_size)
    (hi : i < content.data.length)
    (hbig : 65535 < (content.data.getD i ' ').toNat) :
    ∃ s' A t,
      create_file s name content = .ok (.success, s') ∧
      dirLookup s'.directory name = some (chainHead A, content.length) ∧
      isChain s'.disk (chainHead A) A ∧
      A.length = content.length ∧
      dataOf s'.disk (A.getD i 0) = (content.data.getD i ' ').toNat % 65536 ∧
      (content.data.getD i ' ').toNat % 65536 ≠ (content.data.getD i ' ').toNat ∧
      read_file s' name = .ok (some t) ∧
      t.data.length = content.data.length ∧
      t.data.getD i ' ' ≠ content.data.getD i ' ' := by
  obtain ⟨F, hchain, hfs, hFnd, hFbd⟩ := WF_free_chain hWF
  have hlenN := WF_disk_le hWF
  have hlen32 := WF_disk_eq hWF
  have hnF : content.length ≤ F.length := by omega
  have hn1 : 1 ≤ content.length := by omega
  have hAnd : (F.take content.length).Nodup := (List.take_sublist content.length F).nodup hFnd
  have hAbd : ∀ a ∈ F.take content.length, a < s.disk.length :=
    fun a ha => hFbd a ((List.take_sublist content.length F).mem ha)
  have hAlen : (F.take content.length).length = content.length := by
    rw [List.length_take]
    omega
  have hclen : content.data.length = content.length := rfl
  have hWlen : (writeChain s.disk content.data (F.take content.length)).length
      = s.disk.length := writeChain_length content.data (F.take content.length) s.disk
  have hAchain : isChain (writeChain s.disk content.data (F.take content.length))
      (chainHead F) (F.take content.length) := by
    rw [← chainHead_take hn1]
    exact writeChain_chain content.data (F.take content.length) s.disk hlenN hAnd hAbd
      (by rw [hclen, hAlen])
  have hlook : dirLookup (s.directory ++ [(name, chainHead F, content.length)]) name
      = some (chainHead F, content.length) :=
    dirLookup_append_self hfresh (chainHead F, content.length)
  have hfuel : (F.take content.length).length < WALK_FUEL := by
    have hF32 := nodup_bounded_length hFnd hFbd
    have hW : WALK_FUEL = 65538 := rfl
    have hN := NUM_BLOCKS_eq
    omega
  have hdata : List.Forall₂
      (fun c a => dataOf (writeChain s.disk content.data (F.take content.length)) a
        = c.toNat % 65536)
      content.data (F.take content.length) :=
    writeChain_data content.data (F.take content.length) s.disk hAnd hAbd
      (by rw [hclen, hAlen])
  have hiA : i < (F.take content.length).length := by
    rw [hAlen, ← hclen]
    exact hi
  have hstored : dataOf (writeChain s.disk content.data (F.take content.length))
      ((F.take content.length).getD i 0) = (content.data.getD i ' ').toNat % 65536 :=
    forall₂_getD hdata ' ' 0 i hi
  refine ⟨{ disk := writeChain s.disk content.data (F.take content.length)
            directory := s.directory ++ [(name, chainHead F, content.length)]
            free_head := match F.drop content.length with | [] => none | j :: _ => some j
            free_size := s.free_size - content.length },
    F.take content.length,
    String.mk ((F.take content.length).map
      (fun j => charOfData
        (dataOf (writeChain s.disk content.data (F.take content.length)) j))),
    create_file_success hlenN hchain hfs hname hfresh hne hspace, ?_, ?_, ?_, ?_, ?_, ?_, ?_, ?_⟩
  · rw [chainHead_take hn1]
    exact hlook
  · rw [chainHead_take hn1]
    exact hAchain
  · exact hAlen
  · exact hstored
  · have : (content.data.getD i ' ').toNat % 65536 < 65536 := Nat.mod_lt _ (by omega)
    omega
  · rw [read_file_found (by rw [hWlen]; exact hlenN) hlook hAchain hAnd hfuel]
  · show ((F.take content.length).map _).length = content.data.length
    rw [List.length_map, hAlen, hclen]
  · show ((F.take content.length).map _).getD i ' ' ≠ content.data.getD i ' '
    rw [getD_map_lt hiA, hstored]
    intro heq
    have htn : (charOfData ((content.data.getD i ' ').toNat % 65536)).toNat
        = (content.data.getD i ' ').toNat := congrArg Char.toNat heq
    have hlt : (charOfData ((content.data.getD i ' ').toNat % 65536)).toNat < 65536 :=
      charOfData_toNat_lt (Nat.mod_lt _ (by omega))
    omega

/-- **C10 witness**: at the boot state with name `"a"` and the one-character
content `"𐀀"` (U+10000, code point 65536): the stored field is
`65536 & 0xFFFF = 0` and the read-back character is `'?'`. -/
theorem C10_ord_masked_witness :
    ∃ s' A t,
      create_file boot "a" "𐀀" = .ok (.success, s') ∧
      dirLookup s'.directory "a" = some (chainHead A, "𐀀".length) ∧
      isChain s'.disk (chainHead A) A ∧
      A.length = "𐀀".length ∧
      dataOf s'.disk (A.getD 0 0) = ("𐀀".data.getD 0 ' ').toNat % 65536 ∧
      ("𐀀".data.getD 0 ' ').toNat % 65536 ≠ ("𐀀".data.getD 0 ' ').toNat ∧
      read_file s' "a" = .ok (some t) ∧
      t.data.length = "𐀀".data.length ∧
      t.data.getD 0 ' ' ≠ "𐀀".data.getD 0 ' ' :=
  C10_ord_masked WF_boot (by decide) (by decide) (by decide) (by decide) (by decide)
    (by decide)

/-! ## Claim C6 -/

/-- **C6**: in a well-formed state every public operation returns an
explicit result (never an uncaught exception), and the error kind is
determined by — hence distinguishable as — its distinct trigger condition:
`create_file` returns success or exactly one of `InvalidName`
(name length outside 1..4), `DuplicateName`, `EmptyContent`,
`InsufficientSpace`, each characterized by its own condition, and the
defensive `AllocationFailure` never occurs; `read_file` returns the
content string or `NotFound` (`None`) exactly when the name is absent;
`delete_file` returns the freed count or `NotFound` exactly when the name
is absent. -/
theorem C6_explicit_results {s : FS} (hWF : s.WF) (name content : String) :
    (∃ r s', create_file s name content = .ok (r, s') ∧
      (r = .invalidName ↔ (name.length = 0 ∨ name.length > 4)) ∧
      (r = .duplicateName ↔
        (¬(name.length = 0 ∨ name.length > 4) ∧ (dirLookup s.directory name).isSome = true)) ∧
      (r = .emptyContent ↔
        (¬(name.length = 0 ∨ name.length > 4) ∧ dirLookup s.directory name = none ∧
          content.length = 0)) ∧
      (r = .insufficientSpace ↔
        (¬(name.length = 0 ∨ name.length > 4) ∧ dirLookup s.directory name = none ∧
          content.length ≠ 0 ∧ s.free_size < content.length)) ∧
      r ≠ .allocationFailure ∧
      (r = .success ↔
        (¬(name.length = 0 ∨ name.length > 4) ∧ dirLookup s.directory name = none ∧
          content.length ≠ 0 ∧ ¬s.free_size < content.length))) ∧
    (∃ r, read_file s name = .ok r ∧ (r = none ↔ dirLookup s.directory name = none)) ∧
    (∃ r s', delete_file s name = .ok (r, s') ∧
      (r = none ↔ dirLookup s.directory name = none)) := by
  refine ⟨?_, ?_, ?_⟩
  · by_cases h1 : name.length = 0 ∨ name.length > 4
    · refine ⟨.invalidName, s, create_file_invalidName h1,
        iff_of_true rfl h1,
        iff_of_false (by decide) (fun h => h.1 h1),
        iff_of_false (by decide) (fun h => h.1 h1),
        iff_of_false (by decide) (fun h => h.1 h1),
        by decide,
        iff_of_false (by decide) (fun h => h.1 h1)⟩
    by_cases h2 : (dirLookup s.directory name).isSome = true
    · have hnf : ¬(dirLookup s.directory name = none) := by
        intro h
        rw [h] at h2
        simp at h2
      exact ⟨.duplicateName, s, create_file_duplicate h1 h2,
        iff_of_false (by decide) h1,
        iff_of_true rfl ⟨h1, h2⟩,
        iff_of_false (by decide) (fun h => hnf h.2.1),
        iff_of_false (by decide) (fun h => hnf h.2.1),
        by decide,
        iff_of_false (by decide) (fun h => hnf h.2.1)⟩
    have hfresh : dirLookup s.directory name = none := by
      cases hd : dirLookup s.directory name with
      | none => rfl
      | some v => rw [hd] at h2; simp at h2
    by_cases h3 : content.length = 0
    · exact ⟨.emptyContent, s, create_file_empty h1 hfresh h3,
        iff_of_false (by decide) h1,
        iff_of_false (by decide) (fun h => h2 h.2),
        iff_of_true rfl ⟨h1, hfresh, h3⟩,
        iff_of_false (by decide) (fun h => h.2.2.1 h3),
        by decide,
        iff_of_false (by decide) (fun h => h.2.2.1 h3)⟩
    by_cases h4 : s.free_size < content.length
    · exact ⟨.insufficientSpace, s, create_file_insufficient h1 hfresh h3 h4,
        iff_of_false (by decide) h1,
        iff_of_false (by decide) (fun h => h2 h.2),
        iff_of_false (by decide) (fun h => h3 h.2.2),
        iff_of_true rfl ⟨h1, hfresh, h3, h4⟩,
        by decide,
        iff_of_false (by decide) (fun h => h.2.2.2 h4)⟩
    · obtain ⟨F, hchain, hfs, hFnd, hFbd⟩ := WF_free_chain hWF
      exact ⟨.success, _,
        create_file_success (WF_disk_le hWF) hchain hfs h1 hfresh h3 (Nat.not_lt.mp h4),
        iff_of_false (by decide) h1,
        iff_of_false (by decide) (fun h => h2 h.2),
        iff_of_false (by decide) (fun h => h3 h.2.2),
        iff_of_false (by decide) (fun h => h4 h.2.2.2),
        by decide,
        iff_of_true rfl ⟨h1, hfresh, h3, h4⟩⟩
  · cases hlook : dirLookup s.directory name with
    | none => exact ⟨none, read_file_notFound hlook, iff_of_true rfl rfl⟩
    | some v =>
      obtain ⟨st, len⟩ := v
      obtain ⟨L, hchain, hLlen, hnd, hbd, hfuel⟩ := WF_lookup_chain hWF hlook
      refine ⟨some (String.mk (L.map (fun i => charOfData (dataOf s.disk i)))),
        read_file_found (WF_disk_le hWF) hlook hchain hnd hfuel, ?_⟩
      exact iff_of_false (by simp) (by simp [hlook])
  · cases hlook : dirLookup s.directory name with
    | none => exact ⟨none, s, delete_file_notFound hlook, iff_of_true rfl rfl⟩
    | some v =>
      obtain ⟨st, len⟩ := v
      obtain ⟨L, hchain, hLlen, hnd, hbd, hfuel⟩ := WF_lookup_chain hWF hlook
      refine ⟨some L.length, _,
        delete_file_found (WF_disk_le hWF) hlook hchain hnd hfuel, ?_⟩
      exact iff_of_false (by simp) (by simp [hlook])

/-- **C6 witness**: the characterization applied at the concrete one-file
state `exampleS1`, with the duplicate name `"f1"` and content `"xy"`. -/
theorem C6_explicit_results_witness :
    (∃ r s', create_file exampleS1 "f1" "xy" = .ok (r, s') ∧
      (r = .invalidName ↔ ("f1".length = 0 ∨ "f1".length > 4)) ∧
      (r = .duplicateName ↔
        (¬("f1".length = 0 ∨ "f1".length > 4) ∧
          (dirLookup exampleS1.directory "f1").isSome = true)) ∧
      (r = .emptyContent ↔
        (¬("f1".length = 0 ∨ "f1".length > 4) ∧ dirLookup exampleS1.directory "f1" = none ∧
          "xy".length = 0)) ∧
      (r = .insufficientSpace ↔
        (¬("f1".length = 0 ∨ "f1".length > 4) ∧ dirLookup exampleS1.directory "f1" = none ∧
          "xy".length ≠ 0 ∧ exampleS1.free_size < "xy".length)) ∧
      r ≠ .allocationFailure ∧
      (r = .success ↔
        (¬("f1".length = 0 ∨ "f1".length > 4) ∧ dirLookup exampleS1.directory "f1" = none ∧
          "xy".length ≠ 0 ∧ ¬exampleS1.free_size < "xy".length))) ∧
    (∃ r, read_file exampleS1 "f1" = .ok r ∧
      (r = none ↔ dirLookup exampleS1.directory "f1" = none)) ∧
    (∃ r s', delete_file exampleS1 "f1" = .ok (r, s') ∧
      (r = none ↔ dirLookup exampleS1.directory "f1" = none)) :=
  C6_explicit_results WF_exampleS1 "f1" "xy"
